import Mathlib

/-!
Verification of the reaction-kinetics engine of this repository
(`src/src/kinetics/Kinetics.cpp`) against its design specification.

The kinetics orchestrator (`Kinetics::addReaction`, `closeReactions`,
`updateT`, the rate-coefficient / rate-of-progress / production-rate
pipeline) is embedded directly from `Kinetics.cpp`.  The three
stoichiometry managers, the third-body manager, the rate-coefficient
manager, and the dense-vector operations (`normalize`, componentwise
`exp`) are implemented elsewhere in the repository and are modelled
from the specification's contracts (spec sections 4.1-4.3).
Machine `double` arithmetic is idealized as real arithmetic; `size_t`
arithmetic is modelled exactly (wrap-around modulo 2^64).
-/

namespace Mpp

noncomputable section

/-- Species-indexed and reaction-indexed dense vectors (`RealVector`),
modelled as total functions from indices to reals. -/
abbrev Vec := ℕ → ℝ

/-- Reaction record (spec section 3, used by `Kinetics::addReaction`):
ordered multisets of reactant and product species names, reversibility
flag, third-body flag with sparse efficiencies, the rate law (modelled
by its `lnRateCoefficient` function, spec section 4.3) and a formula
string for diagnostics. -/
structure Reaction where
  reactants : List String
  products : List String
  isReversible : Bool
  isThirdbody : Bool
  efficiencies : List (String × ℝ)
  lnRate : ℝ → ℝ
  formula : String

instance : Inhabited Reaction := ⟨⟨[], [], false, false, [], fun _ => 0, ""⟩⟩

/-- Modelled from the spec: `Reaction::product(name)` returns the
stoichiometric coefficient of `name` on the product side, i.e. the
integer multiplicity of the species in the product multiset (spec
glossary; the `Reaction` class is not under `src/`). -/
def Reaction.productCoeff (rx : Reaction) (name : String) : ℕ :=
  rx.products.count name

/-- Modelled from the spec: `Reaction::reactant(name)`, multiplicity of
`name` in the reactant multiset. -/
def Reaction.reactantCoeff (rx : Reaction) (name : String) : ℕ :=
  rx.reactants.count name

/-- Interface of the external thermodynamic-state collaborator (spec
section 6).  `speciesIndex` returns a negative value for an unknown
species name (as `Thermodynamics::speciesIndex` does); `gOverRT` is the
per-species dimensionless Gibbs energy at the collaborator's current
state. -/
structure Thermodynamics where
  nSpecies : ℕ
  speciesIndex : String → Int
  speciesName : ℕ → String
  speciesMw : ℕ → ℝ
  nElements : ℕ
  elementName : ℕ → String
  elementMatrix : ℕ → ℕ → ℝ
  gOverRT : ℕ → ℝ

/-- Modelled from the spec (section 4.1): a Stoichiometry Manager holds,
per registered reaction, the multiset of participating species indices;
repetition in the list encodes multiplicity.  The manager code is not
under `src/`. -/
structure StoichiometryManager where
  reactions : List (ℕ × List ℕ)

def StoichiometryManager.empty : StoichiometryManager := ⟨[]⟩

/-- Registers one reaction's (possibly repeated) species indices. -/
def StoichiometryManager.addReaction
    (m : StoichiometryManager) (j : ℕ) (sp : List ℕ) : StoichiometryManager :=
  ⟨m.reactions ++ [(j, sp)]⟩

/-- Modelled from the spec: for each registered reaction `j`, add to
`r j` the sum over its incidence multiset of `s`. -/
def StoichiometryManager.incrReactions
    (m : StoichiometryManager) (s : Vec) (r : Vec) : Vec :=
  m.reactions.foldl
    (fun rv e => Function.update rv e.1 (rv e.1 + (e.2.map s).sum)) r

/-- Modelled from the spec: for each registered reaction `j`, subtract
from `r j` the sum over its incidence multiset of `s`. -/
def StoichiometryManager.decrReactions
    (m : StoichiometryManager) (s : Vec) (r : Vec) : Vec :=
  m.reactions.foldl
    (fun rv e => Function.update rv e.1 (rv e.1 - (e.2.map s).sum)) r

/-- Modelled from the spec: for each registered reaction `j`, multiply
`r j` by the mass-action power product of the concentrations. -/
def StoichiometryManager.multReactions
    (m : StoichiometryManager) (c : Vec) (r : Vec) : Vec :=
  m.reactions.foldl
    (fun rv e => Function.update rv e.1 (rv e.1 * (e.2.map c).prod)) r

/-- Modelled from the spec: transpose broadcast; for each registered
reaction `j` and each occurrence of a species `x` in its incidence
multiset, add `r j` into the species vector at `x`. -/
def StoichiometryManager.incrSpecies
    (m : StoichiometryManager) (r : Vec) (s : Vec) : Vec :=
  m.reactions.foldl
    (fun sv e => e.2.foldl (fun sv2 x => Function.update sv2 x (sv2 x + r e.1)) sv) s

/-- Modelled from the spec: transpose broadcast, subtracting. -/
def StoichiometryManager.decrSpecies
    (m : StoichiometryManager) (r : Vec) (s : Vec) : Vec :=
  m.reactions.foldl
    (fun sv e => e.2.foldl (fun sv2 x => Function.update sv2 x (sv2 x - r e.1)) sv) s

/-- Modelled from the spec (section 4.2): the Third-Body Manager holds,
per third-body reaction, a sparse (species index, efficiency) list. -/
structure ThirdbodyManager where
  reactions : List (ℕ × List (ℕ × ℝ))

def ThirdbodyManager.empty : ThirdbodyManager := ⟨[]⟩

def ThirdbodyManager.addReaction
    (m : ThirdbodyManager) (j : ℕ) (effs : List (ℕ × ℝ)) : ThirdbodyManager :=
  ⟨m.reactions ++ [(j, effs)]⟩

/-- Modelled from the spec: efficiency of species `x`, defaulting to 1
for species absent from the sparse list. -/
def thirdbodyEff (effs : List (ℕ × ℝ)) (x : ℕ) : ℝ :=
  ((effs.find? (fun p => p.1 == x)).map Prod.snd).getD 1

/-- Modelled from the spec: the third-body concentration factor
`Σ_species efficiency(species) * conc(species)` over the `ns` species. -/
def thirdbodySum (ns : ℕ) (effs : List (ℕ × ℝ)) (c : Vec) : ℝ :=
  ∑ x ∈ Finset.range ns, thirdbodyEff effs x * c x

/-- Modelled from the spec: multiply `r j` by the third-body factor for
each registered third-body reaction `j`; other reactions are left
unmodified. -/
def ThirdbodyManager.multiplyThirdbodies
    (m : ThirdbodyManager) (ns : ℕ) (c : Vec) (r : Vec) : Vec :=
  m.reactions.foldl
    (fun rv e => Function.update rv e.1 (rv e.1 * thirdbodySum ns e.2 c)) r

/-- Modelled from the spec (section 4.3): the Rate Coefficient Manager
holds one rate law (its `lnRateCoefficient` function) per reaction. -/
structure RateManager where
  rates : List (ℕ × (ℝ → ℝ))

def RateManager.empty : RateManager := ⟨[]⟩

def RateManager.addRateCoefficient
    (m : RateManager) (j : ℕ) (f : ℝ → ℝ) : RateManager :=
  ⟨m.rates ++ [(j, f)]⟩

/-- Modelled from the spec: fills one log forward rate coefficient per
registered reaction into the given vector. -/
def RateManager.lnForwardRateCoefficients
    (m : RateManager) (T : ℝ) (v : Vec) : Vec :=
  m.rates.foldl (fun vv e => Function.update vv e.1 (e.2 T)) v

/-- Modelled from the spec: the universal gas constant `RU` used in the
pressure term `101325 / (RU * T)` of `Kinetics::updateT`
(`Constants.h` is not under `src/`; the numeric value is irrelevant to
every property proved here). -/
def RU : ℝ := 8.314472

/-- C++ conversion of a (possibly negative) `int` species index into a
`size_t`, as performed implicitly by `Kinetics::speciesIndices` pushing
`m_thermo.speciesIndex(...)` into a `vector<size_t>`: reduction modulo
2^64. -/
def sizeTOfInt (i : Int) : ℕ := (i.emod (2 ^ 64)).toNat

/-- `Kinetics::speciesIndices`: maps each species name of a reaction's
multiset to its `size_t` index. -/
def speciesIndicesT (th : Thermodynamics) (names : List String) : List ℕ :=
  names.map (fun nm => sizeTOfInt (th.speciesIndex nm))

/-- `Kinetics::thirdbodyEffs`: maps each (name, efficiency) pair to an
(index, efficiency) pair. -/
def thirdbodyEffsT (th : Thermodynamics) (effs : List (String × ℝ)) :
    List (ℕ × ℝ) :=
  effs.map (fun p => (sizeTOfInt (th.speciesIndex p.1), p.2))

/-- State of the Kinetics engine (`Kinetics.h` members as used by
`Kinetics.cpp`): the reaction list, the three stoichiometry managers,
the third-body and rate managers, `dnu`, and the cached rate state
(`m_T_last`, log forward rate coefficients, log equilibrium
constants). -/
structure Kinetics where
  m_thermo : Thermodynamics
  m_num_rxns : ℕ
  m_reactions : List Reaction
  m_reactants : StoichiometryManager
  m_rev_prods : StoichiometryManager
  m_irr_prods : StoichiometryManager
  m_thirdbodies : ThirdbodyManager
  m_rates : RateManager
  m_dnu : Vec
  m_T_last : ℝ
  m_lnkf : Vec
  m_lnkeq : Vec

/-- Freshly constructed engine before any reaction is added.  `T0` is
the sentinel initial value of `m_T_last` (spec section 3: a sentinel
that never matches a physical temperature; its declaration is not under
`src/`, so it is kept as a parameter). -/
def Kinetics.init (th : Thermodynamics) (T0 : ℝ) : Kinetics :=
  ⟨th, 0, [], .empty, .empty, .empty, .empty, .empty,
   fun _ => 0, T0, fun _ => 0, fun _ => 0⟩

/-- `Kinetics::addReaction`: appends the reaction, registers reactants,
registers products into the reversible-product manager if the reaction
is reversible and into the irreversible-product manager otherwise,
registers third-body efficiencies if flagged, registers the rate law,
and increments the reaction counter. -/
def Kinetics.addReaction (k : Kinetics) (reaction : Reaction) : Kinetics :=
  { k with
    m_reactions := k.m_reactions ++ [reaction]
    m_reactants :=
      k.m_reactants.addReaction k.m_num_rxns
        (speciesIndicesT k.m_thermo reaction.reactants)
    m_rev_prods :=
      if reaction.isReversible then
        k.m_rev_prods.addReaction k.m_num_rxns
          (speciesIndicesT k.m_thermo reaction.products)
      else k.m_rev_prods
    m_irr_prods :=
      if reaction.isReversible then k.m_irr_prods
      else
        k.m_irr_prods.addReaction k.m_num_rxns
          (speciesIndicesT k.m_thermo reaction.products)
    m_thirdbodies :=
      if reaction.isThirdbody then
        k.m_thirdbodies.addReaction k.m_num_rxns
          (thirdbodyEffsT k.m_thermo reaction.efficiencies)
      else k.m_thirdbodies
    m_rates := k.m_rates.addRateCoefficient k.m_num_rxns reaction.lnRate
    m_num_rxns := k.m_num_rxns + 1 }

/-- `Kinetics::getReactionDelta`: zero the reaction vector, subtract the
reactant broadcast, add both product broadcasts. -/
def Kinetics.getReactionDelta (k : Kinetics) (s : Vec) : Vec :=
  k.m_irr_prods.incrReactions s
    (k.m_rev_prods.incrReactions s
      (k.m_reactants.decrReactions s (fun _ => 0)))

/-- The reaction record at index `i` (`m_reactions[i]`). -/
def Kinetics.rxnAt (k : Kinetics) (i : ℕ) : Reaction :=
  k.m_reactions.getD i default

/-- One validation diagnostic, carrying the data the corresponding
`cerr` message of `Kinetics::closeReactions` names. -/
inductive Diagnostic where
  | missingSpecies (rxn : ℕ) (name : String)
  | missingThirdbody (rxn : ℕ) (name : String)
  | duplicate (i j : ℕ)
  | nonConservation (elem : ℕ) (rxn : ℕ)
deriving DecidableEq

/-- Species-existence check of `Kinetics::closeReactions` (lines
85-122): for every reaction, every reactant, product and third-body
species name must resolve to a nonnegative index. -/
def Kinetics.speciesDiags (k : Kinetics) : List Diagnostic :=
  (List.range k.m_num_rxns).flatMap (fun i =>
    ((k.rxnAt i).reactants.filter
        (fun nm => k.m_thermo.speciesIndex nm < 0)).map
      (fun nm => Diagnostic.missingSpecies i nm)
    ++ ((k.rxnAt i).products.filter
        (fun nm => k.m_thermo.speciesIndex nm < 0)).map
      (fun nm => Diagnostic.missingSpecies i nm)
    ++ (if (k.rxnAt i).isThirdbody then
          ((k.rxnAt i).efficiencies.filter
              (fun p => k.m_thermo.speciesIndex p.1 < 0)).map
            (fun p => Diagnostic.missingThirdbody i p.1)
        else []))

/-- Net stoichiometric vector of reaction `i` as built by the duplicate
check (lines 128-135): per species slot `sp`, product coefficient minus
reactant coefficient of the species named `speciesName sp`. -/
def Kinetics.netStoich (k : Kinetics) (i : ℕ) : Vec := fun sp =>
  ((k.rxnAt i).productCoeff (k.m_thermo.speciesName sp) : ℝ)
    - ((k.rxnAt i).reactantCoeff (k.m_thermo.speciesName sp) : ℝ)

/-- Modelled from the spec: Euclidean length of the first `ns` slots of
a `RealVector` (`RealVector::normalize` is not under `src/`; the spec
says the net-stoichiometry vectors are normalized to unit length). -/
def vecNorm (ns : ℕ) (v : Vec) : ℝ :=
  Real.sqrt (∑ sp ∈ Finset.range ns, v sp ^ 2)

/-- Modelled from the spec: `RealVector::normalize`, division by the
Euclidean length. -/
def normalizeVec (ns : ℕ) (v : Vec) : Vec := fun sp => v sp / vecNorm ns v

/-- Componentwise equality of two `RealVector`s of length `ns`
(`operator==` of the vector library, exact comparison). -/
def vecEq (ns : ℕ) (u v : Vec) : Prop := ∀ sp < ns, u sp = v sp

/-- Normalized net stoichiometric vector of reaction `i` as compared by
the duplicate check. -/
def Kinetics.normStoich (k : Kinetics) (i : ℕ) : Vec :=
  normalizeVec k.m_thermo.nSpecies (k.netStoich i)

/-- Upper bound of the outer duplicate-detection loop: `m_num_rxns - 1`
evaluated in `size_t` arithmetic (wrap-around modulo 2^64 when
`m_num_rxns = 0`). -/
def dupOuterBound (n : ℕ) : ℕ := (n + 2 ^ 64 - 1) % 2 ^ 64

/-- Index pairs `(i, j)` compared by the duplicate-detection double loop
(lines 127-146): `i` ranges below `dupOuterBound n`, `j` from `i + 1`
to `n - 1`. -/
def dupVisitedPairs (n : ℕ) : List (ℕ × ℕ) :=
  (List.range (dupOuterBound n)).flatMap (fun i =>
    (List.range' (i + 1) (n - (i + 1))).map (fun j => (i, j)))

/-- Indices at which the duplicate-detection pass reads the reaction
list: each outer index `i` (to build `stoichi`) and each inner index
`j` (to build `stoichj`). -/
def dupAccessedIndices (n : ℕ) : List ℕ :=
  (List.range (dupOuterBound n)).flatMap (fun i =>
    i :: (List.range' (i + 1) (n - (i + 1))))

open Classical in
/-- Duplicate-detection check of `Kinetics::closeReactions` (lines
124-146): report every visited pair whose normalized net-stoichiometry
vectors are exactly equal. -/
def Kinetics.dupDiags (k : Kinetics) : List Diagnostic :=
  (dupVisitedPairs k.m_num_rxns).filterMap (fun p =>
    if vecEq k.m_thermo.nSpecies (k.normStoich p.1) (k.normStoich p.2) then
      some (Diagnostic.duplicate p.1 p.2)
    else none)

open Classical in
/-- Element-conservation check of `Kinetics::closeReactions` (lines
148-163): for every element, broadcast its per-species atom-count
column through `getReactionDelta` and report every reaction whose
residual is not exactly zero. -/
def Kinetics.consDiags (k : Kinetics) : List Diagnostic :=
  (List.range k.m_thermo.nElements).flatMap (fun el =>
    (List.range k.m_num_rxns).filterMap (fun j =>
      if k.getReactionDelta (fun sp => k.m_thermo.elementMatrix sp el) j ≠ 0 then
        some (Diagnostic.nonConservation el j)
      else none))

/-- All diagnostics of the validation pass, in the order the three
checks of `Kinetics::closeReactions` emit them. -/
def Kinetics.validationDiags (k : Kinetics) : List Diagnostic :=
  k.speciesDiags ++ k.dupDiags ++ k.consDiags

/-- The mechanism load aborts (`exit(1)` after "Validation checks
failed!") exactly when at least one diagnostic was emitted, i.e. when
`is_valid` was set to `false` at least once. -/
def Kinetics.loadFails (k : Kinetics) : Prop := k.validationDiags ≠ []

/-- `Kinetics::closeReactions`: runs validation when requested,
computes `dnu` by broadcasting the all-ones species vector through
`getReactionDelta`, and allocates the (zero-initialized) cache vectors.
Returns the emitted diagnostics together with the sealed engine. -/
def Kinetics.closeReactions (k : Kinetics) (validate : Bool) :
    List Diagnostic × Kinetics :=
  ((if validate then k.validationDiags else []),
   { k with
     m_dnu := k.getReactionDelta (fun _ => 1)
     m_lnkf := fun _ => 0
     m_lnkeq := fun _ => 0 })

/-- `Kinetics::updateT`: no-op when `|T - m_T_last| < 1e-6`; otherwise
recompute the log forward rate coefficients, recompute the log
equilibrium constants as `dnu * ln(101325 / (RU * T))` plus the Gibbs
broadcast (reactants added, both product managers subtracted), and
store the new temperature. -/
def Kinetics.updateT (k : Kinetics) (T : ℝ) : Kinetics :=
  if |T - k.m_T_last| < 1e-6 then k
  else
    { k with
      m_lnkf := k.m_rates.lnForwardRateCoefficients T k.m_lnkf
      m_lnkeq :=
        k.m_irr_prods.decrReactions (fun sp => k.m_thermo.gOverRT sp)
          (k.m_rev_prods.decrReactions (fun sp => k.m_thermo.gOverRT sp)
            (k.m_reactants.incrReactions (fun sp => k.m_thermo.gOverRT sp)
              (fun j => k.m_dnu j * Real.log (101325 / (RU * T)))))
      m_T_last := T }

/-- `Kinetics::equilibriumConstants`: update the cache, exponentiate
the cached log equilibrium constants. -/
def Kinetics.equilibriumConstants (k : Kinetics) (T : ℝ) : Vec :=
  fun j => Real.exp ((k.updateT T).m_lnkeq j)

/-- `Kinetics::forwardRateCoefficients`: update the cache, exponentiate
the cached log forward rate coefficients. -/
def Kinetics.forwardRateCoefficients (k : Kinetics) (T : ℝ) : Vec :=
  fun j => Real.exp ((k.updateT T).m_lnkf j)

/-- `Kinetics::backwardRateCoefficients`: update the cache, then
exponentiate the componentwise difference `m_lnkf - m_lnkeq`. -/
def Kinetics.backwardRateCoefficients (k : Kinetics) (T : ℝ) : Vec :=
  fun j => Real.exp ((k.updateT T).m_lnkf j - (k.updateT T).m_lnkeq j)

/-- `Kinetics::forwardRatesOfProgress`: forward coefficients times the
reactant mass-action products times the third-body factors. -/
def Kinetics.forwardRatesOfProgress (k : Kinetics) (T : ℝ) (conc : Vec) : Vec :=
  k.m_thirdbodies.multiplyThirdbodies k.m_thermo.nSpecies conc
    (k.m_reactants.multReactions conc (k.forwardRateCoefficients T))

/-- `Kinetics::backwardRatesOfProgress`: backward coefficients times
the reversible-product mass-action products times the third-body
factors. -/
def Kinetics.backwardRatesOfProgress (k : Kinetics) (T : ℝ) (conc : Vec) : Vec :=
  k.m_thirdbodies.multiplyThirdbodies k.m_thermo.nSpecies conc
    (k.m_rev_prods.multReactions conc (k.backwardRateCoefficients T))

/-- `Kinetics::netRatesOfProgress`: forward minus backward part, then
one third-body scaling of the difference. -/
def Kinetics.netRatesOfProgress (k : Kinetics) (T : ℝ) (conc : Vec) : Vec :=
  k.m_thirdbodies.multiplyThirdbodies k.m_thermo.nSpecies conc
    (fun j =>
      k.m_reactants.multReactions conc (k.forwardRateCoefficients T) j
        - k.m_rev_prods.multReactions conc (k.backwardRateCoefficients T) j)

/-- `Kinetics::netProductionRates`: scatter the net rates of progress
back to species space (reactants subtract, both product managers add),
then convert to mass basis by the species molecular weight. -/
def Kinetics.netProductionRates (k : Kinetics) (T : ℝ) (conc : Vec) : Vec :=
  fun sp =>
    (k.m_irr_prods.incrSpecies (k.netRatesOfProgress T conc)
        (k.m_rev_prods.incrSpecies (k.netRatesOfProgress T conc)
          (k.m_reactants.decrSpecies (k.netRatesOfProgress T conc)
            (fun _ => 0)))) sp
      * k.m_thermo.speciesMw sp

/-- Folding `addReaction` over a list of reaction records (the
construction loop of the `Kinetics` constructor). -/
def Kinetics.addReactionList (k : Kinetics) (rxns : List Reaction) : Kinetics :=
  rxns.foldl Kinetics.addReaction k

/-- Engine built from a mechanism: all reactions added in order,
starting from the fresh state. -/
def Kinetics.buildFrom (th : Thermodynamics) (T0 : ℝ)
    (rxns : List Reaction) : Kinetics :=
  (Kinetics.init th T0).addReactionList rxns

/-- Engine built and sealed with validation requested, as the
`Kinetics` constructor does. -/
def Kinetics.seal (th : Thermodynamics) (T0 : ℝ)
    (rxns : List Reaction) : Kinetics :=
  ((Kinetics.buildFrom th T0 rxns).closeReactions true).2

/-! ### Characterization of the manager broadcast operations -/

/-- A fold that updates slot `e.1` of the vector as a function of its
current value touches slot `j` exactly through the entries of `j`'s
fiber. -/
theorem foldl_update_apply {β : Type _} (g : ℝ → (ℕ × β) → ℝ)
    (l : List (ℕ × β)) (v : Vec) (j : ℕ) :
    (l.foldl (fun vv e => Function.update vv e.1 (g (vv e.1) e)) v) j
      = (l.filter (fun e => e.1 = j)).foldl g (v j) := by
  induction l generalizing v with
  | nil => rfl
  | cons e l ih =>
    rw [List.foldl_cons, ih, List.filter_cons, Function.update_apply]
    by_cases h : e.1 = j
    · subst h
      simp
    · simp [h, Ne.symm h]

/-- Folding addition of a summand over a list accumulates the sum. -/
theorem foldl_add_sum {α : Type _} (S : α → ℝ) (l : List α) (x : ℝ) :
    l.foldl (fun a e => a + S e) x = x + (l.map S).sum := by
  induction l generalizing x with
  | nil => simp
  | cons e l ih => simp [ih, add_assoc]

/-- Folding subtraction of a summand over a list subtracts the sum. -/
theorem foldl_sub_sum {α : Type _} (S : α → ℝ) (l : List α) (x : ℝ) :
    l.foldl (fun a e => a - S e) x = x - (l.map S).sum := by
  induction l generalizing x with
  | nil => simp
  | cons e l ih => simp [ih, sub_sub]

/-- Folding multiplication of a factor over a list accumulates the
product. -/
theorem foldl_mul_prod {α : Type _} (S : α → ℝ) (l : List α) (x : ℝ) :
    l.foldl (fun a e => a * S e) x = x * (l.map S).prod := by
  induction l generalizing x with
  | nil => simp
  | cons e l ih => simp [ih, mul_assoc]

/-- Sum collected by `incrReactions` at reaction slot `j`: the sums of
`s` over the incidence lists of `j`'s fiber. -/
def fiberSum (m : StoichiometryManager) (s : Vec) (j : ℕ) : ℝ :=
  ((m.reactions.filter (fun e => e.1 = j)).map (fun e => (e.2.map s).sum)).sum

/-- Product collected by `multReactions` at reaction slot `j`. -/
def fiberProd (m : StoichiometryManager) (c : Vec) (j : ℕ) : ℝ :=
  ((m.reactions.filter (fun e => e.1 = j)).map (fun e => (e.2.map c).prod)).prod

theorem StoichiometryManager.incrReactions_apply
    (m : StoichiometryManager) (s r : Vec) (j : ℕ) :
    m.incrReactions s r j = r j + fiberSum m s j :=
  (foldl_update_apply (β := List ℕ) (fun x e => x + (e.2.map s).sum)
      m.reactions r j).trans
    (foldl_add_sum (fun e : ℕ × List ℕ => (e.2.map s).sum)
      (m.reactions.filter (fun e => e.1 = j)) (r j))

theorem StoichiometryManager.decrReactions_apply
    (m : StoichiometryManager) (s r : Vec) (j : ℕ) :
    m.decrReactions s r j = r j - fiberSum m s j :=
  (foldl_update_apply (β := List ℕ) (fun x e => x - (e.2.map s).sum)
      m.reactions r j).trans
    (foldl_sub_sum (fun e : ℕ × List ℕ => (e.2.map s).sum)
      (m.reactions.filter (fun e => e.1 = j)) (r j))

theorem StoichiometryManager.multReactions_apply
    (m : StoichiometryManager) (c r : Vec) (j : ℕ) :
    m.multReactions c r j = r j * fiberProd m c j :=
  (foldl_update_apply (β := List ℕ) (fun x e => x * (e.2.map c).prod)
      m.reactions r j).trans
    (foldl_mul_prod (fun e : ℕ × List ℕ => (e.2.map c).prod)
      (m.reactions.filter (fun e => e.1 = j)) (r j))

/-- Third-body factor applied to reaction slot `j`: the product of the
third-body sums of `j`'s fiber (1 when `j` carries no third body). -/
def tbFiberProd (m : ThirdbodyManager) (ns : ℕ) (c : Vec) (j : ℕ) : ℝ :=
  ((m.reactions.filter (fun e => e.1 = j)).map
    (fun e => thirdbodySum ns e.2 c)).prod

theorem ThirdbodyManager.multiplyThirdbodies_apply
    (m : ThirdbodyManager) (ns : ℕ) (c r : Vec) (j : ℕ) :
    m.multiplyThirdbodies ns c r j = r j * tbFiberProd m ns c j :=
  (foldl_update_apply (β := List (ℕ × ℝ)) (fun x e => x * thirdbodySum ns e.2 c)
      m.reactions r j).trans
    (foldl_mul_prod (fun e : ℕ × List (ℕ × ℝ) => thirdbodySum ns e.2 c)
      (m.reactions.filter (fun e => e.1 = j)) (r j))

/-- Filling the log forward rates leaves a slot with empty fiber
untouched. -/
theorem RateManager.lnForwardRateCoefficients_apply_nil
    (m : RateManager) (T : ℝ) (v : Vec) (j : ℕ)
    (h : m.rates.filter (fun e => e.1 = j) = []) :
    m.lnForwardRateCoefficients T v j = v j := by
  have h2 := foldl_update_apply (β := ℝ → ℝ) (fun _ e => e.2 T) m.rates v j
  rw [h] at h2
  exact h2

/-- Filling the log forward rates writes `f T` into a slot whose fiber
is the single registered rate law `f`. -/
theorem RateManager.lnForwardRateCoefficients_apply_single
    (m : RateManager) (T : ℝ) (v : Vec) (j : ℕ) (f : ℝ → ℝ)
    (h : m.rates.filter (fun e => e.1 = j) = [(j, f)]) :
    m.lnForwardRateCoefficients T v j = f T := by
  have h2 := foldl_update_apply (β := ℝ → ℝ) (fun _ e => e.2 T) m.rates v j
  rw [h] at h2
  exact h2

/-- Scattering a fixed bump into one species slot repeatedly adds the
occurrence count times the bump. -/
theorem foldl_bump_add (x : ℝ) (l : List ℕ) (v : Vec) (sp : ℕ) :
    (l.foldl (fun sv k => Function.update sv k (sv k + x)) v) sp
      = v sp + (l.count sp : ℝ) * x := by
  induction l generalizing v with
  | nil => simp
  | cons a l ih =>
    rw [List.foldl_cons, ih, Function.update_apply, List.count_cons]
    by_cases h : sp = a
    · subst h
      rw [if_pos rfl, if_pos (by simp)]
      push_cast
      ring
    · rw [if_neg h, if_neg (by simp only [beq_iff_eq]; exact Ne.symm h)]
      push_cast
      ring

/-- Subtracting version of `foldl_bump_add`. -/
theorem foldl_bump_sub (x : ℝ) (l : List ℕ) (v : Vec) (sp : ℕ) :
    (l.foldl (fun sv k => Function.update sv k (sv k - x)) v) sp
      = v sp - (l.count sp : ℝ) * x := by
  induction l generalizing v with
  | nil => simp
  | cons a l ih =>
    rw [List.foldl_cons, ih, Function.update_apply, List.count_cons]
    by_cases h : sp = a
    · subst h
      rw [if_pos rfl, if_pos (by simp)]
      push_cast
      ring
    · rw [if_neg h, if_neg (by simp only [beq_iff_eq]; exact Ne.symm h)]
      push_cast
      ring

/-- List-level form of the species scatter used by `incrSpecies`. -/
theorem foldl_scatter_add (r : Vec) (l : List (ℕ × List ℕ)) (v : Vec) (sp : ℕ) :
    (l.foldl (fun sv e =>
        e.2.foldl (fun sv2 x => Function.update sv2 x (sv2 x + r e.1)) sv) v) sp
      = v sp + (l.map (fun e => (e.2.count sp : ℝ) * r e.1)).sum := by
  induction l generalizing v with
  | nil => simp
  | cons e l ih =>
    rw [List.foldl_cons, ih, foldl_bump_add, List.map_cons, List.sum_cons]
    ring

/-- List-level form of the species scatter used by `decrSpecies`. -/
theorem foldl_scatter_sub (r : Vec) (l : List (ℕ × List ℕ)) (v : Vec) (sp : ℕ) :
    (l.foldl (fun sv e =>
        e.2.foldl (fun sv2 x => Function.update sv2 x (sv2 x - r e.1)) sv) v) sp
      = v sp - (l.map (fun e => (e.2.count sp : ℝ) * r e.1)).sum := by
  induction l generalizing v with
  | nil => simp
  | cons e l ih =>
    rw [List.foldl_cons, ih, foldl_bump_sub, List.map_cons, List.sum_cons]
    ring

theorem StoichiometryManager.incrSpecies_apply
    (m : StoichiometryManager) (r v : Vec) (sp : ℕ) :
    m.incrSpecies r v sp
      = v sp + (m.reactions.map (fun e => (e.2.count sp : ℝ) * r e.1)).sum :=
  foldl_scatter_add r m.reactions v sp

theorem StoichiometryManager.decrSpecies_apply
    (m : StoichiometryManager) (r v : Vec) (sp : ℕ) :
    m.decrSpecies r v sp
      = v sp - (m.reactions.map (fun e => (e.2.count sp : ℝ) * r e.1)).sum :=
  foldl_scatter_sub r m.reactions v sp

/-- `getReactionDelta` at slot `j`: product fibers minus reactant
fiber. -/
theorem Kinetics.getReactionDelta_apply (k : Kinetics) (s : Vec) (j : ℕ) :
    k.getReactionDelta s j
      = fiberSum k.m_rev_prods s j + fiberSum k.m_irr_prods s j
          - fiberSum k.m_reactants s j := by
  unfold Kinetics.getReactionDelta
  rw [StoichiometryManager.incrReactions_apply,
    StoichiometryManager.incrReactions_apply,
    StoichiometryManager.decrReactions_apply]
  ring

/-! ### Contents of the managers after mechanism construction -/

theorem Kinetics.addReactionList_nil (k : Kinetics) :
    k.addReactionList [] = k := rfl

theorem Kinetics.addReactionList_cons (k : Kinetics) (rx : Reaction)
    (rxns : List Reaction) :
    k.addReactionList (rx :: rxns) = (k.addReaction rx).addReactionList rxns :=
  rfl

theorem Kinetics.addReactionList_thermo (k : Kinetics) (rxns : List Reaction) :
    (k.addReactionList rxns).m_thermo = k.m_thermo := by
  induction rxns generalizing k with
  | nil => rfl
  | cons rx rxns ih => exact ih (k.addReaction rx)

theorem Kinetics.addReactionList_num (k : Kinetics) (rxns : List Reaction) :
    (k.addReactionList rxns).m_num_rxns = k.m_num_rxns + rxns.length := by
  induction rxns generalizing k with
  | nil => rfl
  | cons rx rxns ih =>
    rw [Kinetics.addReactionList_cons, ih]
    simp [Kinetics.addReaction]
    ring

theorem Kinetics.addReactionList_rxns (k : Kinetics) (rxns : List Reaction) :
    (k.addReactionList rxns).m_reactions = k.m_reactions ++ rxns := by
  induction rxns generalizing k with
  | nil => simp [Kinetics.addReactionList_nil]
  | cons rx rxns ih =>
    rw [Kinetics.addReactionList_cons, ih]
    simp [Kinetics.addReaction]

theorem Kinetics.addReactionList_caches (k : Kinetics) (rxns : List Reaction) :
    (k.addReactionList rxns).m_dnu = k.m_dnu
      ∧ (k.addReactionList rxns).m_T_last = k.m_T_last
      ∧ (k.addReactionList rxns).m_lnkf = k.m_lnkf
      ∧ (k.addReactionList rxns).m_lnkeq = k.m_lnkeq := by
  induction rxns generalizing k with
  | nil => exact ⟨rfl, rfl, rfl, rfl⟩
  | cons rx rxns ih => exact ih (k.addReaction rx)

theorem Kinetics.addReactionList_reactants (k : Kinetics) (rxns : List Reaction) :
    (k.addReactionList rxns).m_reactants.reactions
      = k.m_reactants.reactions
        ++ (List.enumFrom k.m_num_rxns rxns).map
            (fun p => (p.1, speciesIndicesT k.m_thermo p.2.reactants)) := by
  induction rxns generalizing k with
  | nil => simp [Kinetics.addReactionList_nil]
  | cons rx rxns ih =>
    rw [Kinetics.addReactionList_cons, ih]
    simp [Kinetics.addReaction, StoichiometryManager.addReaction, List.enumFrom]

theorem Kinetics.addReactionList_rev_prods (k : Kinetics) (rxns : List Reaction) :
    (k.addReactionList rxns).m_rev_prods.reactions
      = k.m_rev_prods.reactions
        ++ ((List.enumFrom k.m_num_rxns rxns).filter
              (fun p => p.2.isReversible)).map
            (fun p => (p.1, speciesIndicesT k.m_thermo p.2.products)) := by
  induction rxns generalizing k with
  | nil => simp [Kinetics.addReactionList_nil]
  | cons rx rxns ih =>
    rw [Kinetics.addReactionList_cons, ih]
    by_cases h : rx.isReversible
    · simp [Kinetics.addReaction, StoichiometryManager.addReaction,
        List.enumFrom, h]
    · simp [Kinetics.addReaction, List.enumFrom, h]

theorem Kinetics.addReactionList_irr_prods (k : Kinetics) (rxns : List Reaction) :
    (k.addReactionList rxns).m_irr_prods.reactions
      = k.m_irr_prods.reactions
        ++ ((List.enumFrom k.m_num_rxns rxns).filter
              (fun p => !p.2.isReversible)).map
            (fun p => (p.1, speciesIndicesT k.m_thermo p.2.products)) := by
  induction rxns generalizing k with
  | nil => simp [Kinetics.addReactionList_nil]
  | cons rx rxns ih =>
    rw [Kinetics.addReactionList_cons, ih]
    by_cases h : rx.isReversible
    · simp [Kinetics.addReaction, List.enumFrom, h]
    · simp [Kinetics.addReaction, StoichiometryManager.addReaction,
        List.enumFrom, h]

theorem Kinetics.addReactionList_thirdbodies (k : Kinetics) (rxns : List Reaction) :
    (k.addReactionList rxns).m_thirdbodies.reactions
      = k.m_thirdbodies.reactions
        ++ ((List.enumFrom k.m_num_rxns rxns).filter
              (fun p => p.2.isThirdbody)).map
            (fun p => (p.1, thirdbodyEffsT k.m_thermo p.2.efficiencies)) := by
  induction rxns generalizing k with
  | nil => simp [Kinetics.addReactionList_nil]
  | cons rx rxns ih =>
    rw [Kinetics.addReactionList_cons, ih]
    by_cases h : rx.isThirdbody
    · simp [Kinetics.addReaction, ThirdbodyManager.addReaction,
        List.enumFrom, h]
    · simp [Kinetics.addReaction, List.enumFrom, h]

theorem Kinetics.addReactionList_rates (k : Kinetics) (rxns : List Reaction) :
    (k.addReactionList rxns).m_rates.rates
      = k.m_rates.rates
        ++ (List.enumFrom k.m_num_rxns rxns).map (fun p => (p.1, p.2.lnRate)) := by
  induction rxns generalizing k with
  | nil => simp [Kinetics.addReactionList_nil]
  | cons rx rxns ih =>
    rw [Kinetics.addReactionList_cons, ih]
    simp [Kinetics.addReaction, RateManager.addRateCoefficient, List.enumFrom]

/-! ### Fibers of enumerated lists -/

theorem enumFrom_fiber_out {α : Type _} (l : List α) (n0 j : ℕ)
    (h : j < n0 ∨ n0 + l.length ≤ j) :
    (List.enumFrom n0 l).filter (fun p => p.1 = j) = [] := by
  induction l generalizing n0 with
  | nil => rfl
  | cons a l ih =>
    rw [show List.enumFrom n0 (a :: l) = (n0, a) :: List.enumFrom (n0 + 1) l
      from rfl]
    rw [List.filter_cons]
    have hne : ¬(n0 = j) := by
      rcases h with h | h
      · omega
      · simp only [List.length_cons] at h
        omega
    rw [if_neg (by simpa using hne)]
    apply ih
    rcases h with h | h
    · omega
    · simp only [List.length_cons] at h
      omega

theorem enumFrom_fiber_in {α : Type _} [Inhabited α] (l : List α) (n0 j : ℕ)
    (h1 : n0 ≤ j) (h2 : j < n0 + l.length) :
    (List.enumFrom n0 l).filter (fun p => p.1 = j)
      = [(j, l.getD (j - n0) default)] := by
  induction l generalizing n0 with
  | nil =>
    simp only [List.length_nil, Nat.add_zero] at h2
    omega
  | cons a l ih =>
    rw [show List.enumFrom n0 (a :: l) = (n0, a) :: List.enumFrom (n0 + 1) l
      from rfl]
    rw [List.filter_cons]
    by_cases h : n0 = j
    · subst h
      rw [if_pos (by simp)]
      rw [enumFrom_fiber_out l (n0 + 1) n0 (Or.inl (by omega))]
      simp
    · rw [if_neg (by simpa using h)]
      rw [ih (n0 + 1) (by omega) (by simp only [List.length_cons] at h2; omega)]
      have : j - n0 = (j - (n0 + 1)) + 1 := by omega
      rw [this]
      simp

theorem filter_swap {α : Type _} (p q : α → Bool) (l : List α) :
    (l.filter p).filter q = (l.filter q).filter p := by
  induction l with
  | nil => rfl
  | cons a l ih =>
    by_cases hp : p a <;> by_cases hq : q a <;>
      simp [List.filter_cons, hp, hq, ih]

theorem enum_map_fiber_in {γ : Type _} (rxns : List Reaction) (G : Reaction → γ)
    (j : ℕ) (h : j < rxns.length) :
    ((List.enumFrom 0 rxns).map (fun p => (p.1, G p.2))).filter
        (fun e => e.1 = j)
      = [(j, G (rxns.getD j default))] := by
  rw [List.filter_map]
  have hcomp : ((fun e : ℕ × γ => decide (e.1 = j))
        ∘ (fun p : ℕ × Reaction => (p.1, G p.2)))
      = (fun p : ℕ × Reaction => decide (p.1 = j)) := rfl
  rw [hcomp, enumFrom_fiber_in rxns 0 j (Nat.zero_le j) (by omega)]
  simp

theorem enum_map_fiber_out {γ : Type _} (rxns : List Reaction) (G : Reaction → γ)
    (j : ℕ) (h : rxns.length ≤ j) :
    ((List.enumFrom 0 rxns).map (fun p => (p.1, G p.2))).filter
        (fun e => e.1 = j)
      = [] := by
  rw [List.filter_map]
  have hcomp : ((fun e : ℕ × γ => decide (e.1 = j))
        ∘ (fun p : ℕ × Reaction => (p.1, G p.2)))
      = (fun p : ℕ × Reaction => decide (p.1 = j)) := rfl
  rw [hcomp, enumFrom_fiber_out rxns 0 j (Or.inr (by omega))]
  rfl

theorem enum_filter_map_fiber_in {γ : Type _} (rxns : List Reaction)
    (q : Reaction → Bool) (G : Reaction → γ) (j : ℕ) (h : j < rxns.length) :
    (((List.enumFrom 0 rxns).filter (fun p => q p.2)).map
        (fun p => (p.1, G p.2))).filter (fun e => e.1 = j)
      = if q (rxns.getD j default) then [(j, G (rxns.getD j default))]
        else [] := by
  rw [List.filter_map]
  have hcomp : ((fun e : ℕ × γ => decide (e.1 = j))
        ∘ (fun p : ℕ × Reaction => (p.1, G p.2)))
      = (fun p : ℕ × Reaction => decide (p.1 = j)) := rfl
  rw [hcomp, filter_swap, enumFrom_fiber_in rxns 0 j (Nat.zero_le j) (by omega)]
  simp only [Nat.sub_zero]
  generalize rxns.getD j default = r
  cases hq : q r <;> simp [List.filter_cons, hq]

theorem enum_filter_map_fiber_out {γ : Type _} (rxns : List Reaction)
    (q : Reaction → Bool) (G : Reaction → γ) (j : ℕ) (h : rxns.length ≤ j) :
    (((List.enumFrom 0 rxns).filter (fun p => q p.2)).map
        (fun p => (p.1, G p.2))).filter (fun e => e.1 = j)
      = [] := by
  rw [List.filter_map]
  have hcomp : ((fun e : ℕ × γ => decide (e.1 = j))
        ∘ (fun p : ℕ × Reaction => (p.1, G p.2)))
      = (fun p : ℕ × Reaction => decide (p.1 = j)) := rfl
  rw [hcomp, filter_swap, enumFrom_fiber_out rxns 0 j (Or.inr (by omega))]
  rfl

/-- Reactant-manager fiber of a built engine at a valid reaction
index. -/
theorem Kinetics.buildFrom_reactants_fiber (th : Thermodynamics) (T0 : ℝ)
    (rxns : List Reaction) (j : ℕ) (h : j < rxns.length) :
    (Kinetics.buildFrom th T0 rxns).m_reactants.reactions.filter
        (fun e => e.1 = j)
      = [(j, speciesIndicesT th ((rxns.getD j default).reactants))] := by
  unfold Kinetics.buildFrom
  rw [Kinetics.addReactionList_reactants]
  simp only [Kinetics.init, StoichiometryManager.empty, List.nil_append]
  exact enum_map_fiber_in rxns (fun rx => speciesIndicesT th rx.reactants) j h

theorem Kinetics.buildFrom_reactants_fiber_out (th : Thermodynamics) (T0 : ℝ)
    (rxns : List Reaction) (j : ℕ) (h : rxns.length ≤ j) :
    (Kinetics.buildFrom th T0 rxns).m_reactants.reactions.filter
        (fun e => e.1 = j)
      = [] := by
  unfold Kinetics.buildFrom
  rw [Kinetics.addReactionList_reactants]
  simp only [Kinetics.init, StoichiometryManager.empty, List.nil_append]
  exact enum_map_fiber_out rxns (fun rx => speciesIndicesT th rx.reactants) j h

/-- Reversible-product-manager fiber of a built engine at a valid
reaction index: the products exactly when the reaction is reversible. -/
theorem Kinetics.buildFrom_rev_prods_fiber (th : Thermodynamics) (T0 : ℝ)
    (rxns : List Reaction) (j : ℕ) (h : j < rxns.length) :
    (Kinetics.buildFrom th T0 rxns).m_rev_prods.reactions.filter
        (fun e => e.1 = j)
      = if (rxns.getD j default).isReversible then
          [(j, speciesIndicesT th ((rxns.getD j default).products))]
        else [] := by
  unfold Kinetics.buildFrom
  rw [Kinetics.addReactionList_rev_prods]
  simp only [Kinetics.init, StoichiometryManager.empty, List.nil_append]
  exact enum_filter_map_fiber_in rxns (fun rx => rx.isReversible)
    (fun rx => speciesIndicesT th rx.products) j h

theorem Kinetics.buildFrom_rev_prods_fiber_out (th : Thermodynamics) (T0 : ℝ)
    (rxns : List Reaction) (j : ℕ) (h : rxns.length ≤ j) :
    (Kinetics.buildFrom th T0 rxns).m_rev_prods.reactions.filter
        (fun e => e.1 = j)
      = [] := by
  unfold Kinetics.buildFrom
  rw [Kinetics.addReactionList_rev_prods]
  simp only [Kinetics.init, StoichiometryManager.empty, List.nil_append]
  exact enum_filter_map_fiber_out rxns (fun rx => rx.isReversible)
    (fun rx => speciesIndicesT th rx.products) j h

/-- Irreversible-product-manager fiber of a built engine at a valid
reaction index: the products exactly when the reaction is not
reversible. -/
theorem Kinetics.buildFrom_irr_prods_fiber (th : Thermodynamics) (T0 : ℝ)
    (rxns : List Reaction) (j : ℕ) (h : j < rxns.length) :
    (Kinetics.buildFrom th T0 rxns).m_irr_prods.reactions.filter
        (fun e => e.1 = j)
      = if (rxns.getD j default).isReversible then []
        else [(j, speciesIndicesT th ((rxns.getD j default).products))] := by
  unfold Kinetics.buildFrom
  rw [Kinetics.addReactionList_irr_prods]
  simp only [Kinetics.init, StoichiometryManager.empty, List.nil_append]
  rw [enum_filter_map_fiber_in rxns (fun rx => !rx.isReversible)
    (fun rx => speciesIndicesT th rx.products) j h]
  generalize rxns.getD j default = r
  cases hq : r.isReversible <;> simp [hq]

theorem Kinetics.buildFrom_irr_prods_fiber_out (th : Thermodynamics) (T0 : ℝ)
    (rxns : List Reaction) (j : ℕ) (h : rxns.length ≤ j) :
    (Kinetics.buildFrom th T0 rxns).m_irr_prods.reactions.filter
        (fun e => e.1 = j)
      = [] := by
  unfold Kinetics.buildFrom
  rw [Kinetics.addReactionList_irr_prods]
  simp only [Kinetics.init, StoichiometryManager.empty, List.nil_append]
  exact enum_filter_map_fiber_out rxns (fun rx => !rx.isReversible)
    (fun rx => speciesIndicesT th rx.products) j h

/-- Third-body-manager fiber of a built engine at a valid reaction
index. -/
theorem Kinetics.buildFrom_thirdbodies_fiber (th : Thermodynamics) (T0 : ℝ)
    (rxns : List Reaction) (j : ℕ) (h : j < rxns.length) :
    (Kinetics.buildFrom th T0 rxns).m_thirdbodies.reactions.filter
        (fun e => e.1 = j)
      = if (rxns.getD j default).isThirdbody then
          [(j, thirdbodyEffsT th ((rxns.getD j default).efficiencies))]
        else [] := by
  unfold Kinetics.buildFrom
  rw [Kinetics.addReactionList_thirdbodies]
  simp only [Kinetics.init, ThirdbodyManager.empty, List.nil_append]
  exact enum_filter_map_fiber_in rxns (fun rx => rx.isThirdbody)
    (fun rx => thirdbodyEffsT th rx.efficiencies) j h

/-- Rate-manager fiber of a built engine at a valid reaction index:
exactly the reaction's rate law. -/
theorem Kinetics.buildFrom_rates_fiber (th : Thermodynamics) (T0 : ℝ)
    (rxns : List Reaction) (j : ℕ) (h : j < rxns.length) :
    (Kinetics.buildFrom th T0 rxns).m_rates.rates.filter
        (fun e => e.1 = j)
      = [(j, (rxns.getD j default).lnRate)] := by
  unfold Kinetics.buildFrom
  rw [Kinetics.addReactionList_rates]
  simp only [Kinetics.init, RateManager.empty, List.nil_append]
  exact enum_map_fiber_in rxns (fun rx => rx.lnRate) j h

/-! ### Summation helpers -/

/-- A list sum regrouped by a key bounded by `n`. -/
theorem list_sum_fiberwise {α : Type _} (l : List α) (key : α → ℕ) (F : α → ℝ)
    (n : ℕ) (h : ∀ a ∈ l, key a < n) :
    (l.map F).sum
      = ∑ j ∈ Finset.range n, ((l.filter (fun a => key a = j)).map F).sum := by
  induction l with
  | nil => simp
  | cons a l ih =>
    have ha : key a ∈ Finset.range n :=
      Finset.mem_range.mpr (h a (List.mem_cons_self a l))
    have hsplit : ∀ j, (((a :: l).filter (fun x => key x = j)).map F).sum
        = (if key a = j then F a else 0)
          + ((l.filter (fun x => key x = j)).map F).sum := by
      intro j
      rw [List.filter_cons]
      by_cases hj : key a = j
      · rw [if_pos (by simpa using hj), if_pos hj, List.map_cons, List.sum_cons]
      · rw [if_neg (by simpa using hj), if_neg hj, zero_add]
    rw [List.map_cons, List.sum_cons,
      ih (fun x hx => h x (List.mem_cons_of_mem a hx)),
      Finset.sum_congr rfl (fun j _ => hsplit j), Finset.sum_add_distrib,
      Finset.sum_ite_eq (Finset.range n) (key a) (fun _ => F a), if_pos ha]

/-- A count-weighted sum over the species range equals the sum over the
occurrence list, when every occurrence is in range. -/
theorem sum_count_mul (l : List ℕ) (v : Vec) (n : ℕ) (h : ∀ x ∈ l, x < n) :
    (∑ sp ∈ Finset.range n, (l.count sp : ℝ) * v sp) = (l.map v).sum := by
  induction l with
  | nil => simp
  | cons x l ih =>
    have hx : x ∈ Finset.range n :=
      Finset.mem_range.mpr (h x (List.mem_cons_self x l))
    have hterm : ∀ sp, (((x :: l).count sp : ℝ)) * v sp
        = (l.count sp : ℝ) * v sp + (if x = sp then v sp else 0) := by
      intro sp
      rw [List.count_cons]
      by_cases hxs : x = sp
      · rw [if_pos (by simpa using hxs), if_pos hxs]
        push_cast
        ring
      · rw [if_neg (by simpa using hxs), if_neg hxs]
        push_cast
        ring
    rw [Finset.sum_congr rfl (fun sp _ => hterm sp), Finset.sum_add_distrib,
      ih (fun y hy => h y (List.mem_cons_of_mem x hy)),
      Finset.sum_ite_eq (Finset.range n) x v, if_pos hx, List.map_cons,
      List.sum_cons]
    ring

/-- Swapping a list sum with a finite sum. -/
theorem list_map_sum_swap {α β : Type _} (l : List α) (F : Finset β)
    (g : α → β → ℝ) :
    (l.map (fun x => ∑ e ∈ F, g x e)).sum
      = ∑ e ∈ F, (l.map (fun x => g x e)).sum := by
  induction l with
  | nil => simp
  | cons x l ih =>
    rw [List.map_cons, List.sum_cons, ih, ← Finset.sum_add_distrib]
    refine Finset.sum_congr rfl (fun e _ => ?_)
    rw [List.map_cons, List.sum_cons]

/-- Factoring a constant out of a mapped list sum. -/
theorem map_sum_const_mul {α : Type _} (c : ℝ) (f : α → ℝ) (l : List α) :
    (l.map (fun x => c * f x)).sum = c * (l.map f).sum := by
  induction l with
  | nil => simp
  | cons x l ih =>
    rw [List.map_cons, List.sum_cons, ih, List.map_cons, List.sum_cons]
    ring

/-- Sum of ones over an occurrence list is its length. -/
theorem ones_sum {α : Type _} (l : List α) :
    (l.map (fun _ => (1 : ℝ))).sum = l.length := by
  induction l with
  | nil => simp
  | cons x l ih =>
    rw [List.map_cons, List.sum_cons, ih, List.length_cons]
    push_cast
    ring

/-- On a fiber all of whose keys equal `j`, a `rop`-weighted map sum
factors `rop j` out. -/
theorem map_sum_fiber_factor {γ : Type _} (l : List (ℕ × γ)) (j : ℕ)
    (rop : Vec) (S : ℕ × γ → ℝ) (h : ∀ e ∈ l, e.1 = j) :
    (l.map (fun e => rop e.1 * S e)).sum = rop j * (l.map S).sum := by
  induction l with
  | nil => simp
  | cons e l ih =>
    rw [List.map_cons, List.sum_cons, List.map_cons, List.sum_cons,
      ih (fun x hx => h x (List.mem_cons_of_mem e hx)),
      h e (List.mem_cons_self e l)]
    ring

/-- A fiber sum vanishes at a slot larger than every registered
index. -/
theorem fiberSum_empty_of_indices_lt (m : StoichiometryManager) (s : Vec)
    (j n : ℕ) (hm : ∀ e ∈ m.reactions, e.1 < n) (hj : n ≤ j) :
    fiberSum m s j = 0 := by
  unfold fiberSum
  have hnil : m.reactions.filter (fun e => e.1 = j) = [] := by
    rw [List.filter_eq_nil_iff]
    intro e he
    have := hm e he
    simp only [decide_eq_true_eq]
    omega
  rw [hnil]
  rfl

/-- A species-occurrence list sum rewritten through the elementwise
span of the species vector. -/
theorem map_sum_span (sl : List ℕ) (Mw : Vec) (E : ℕ → ℕ → ℝ) (w : Vec)
    (nE ns : ℕ)
    (hs : ∀ sp < ns, Mw sp = ∑ el ∈ Finset.range nE, E sp el * w el)
    (hx : ∀ x ∈ sl, x < ns) :
    (sl.map Mw).sum
      = ∑ el ∈ Finset.range nE, w el * (sl.map (fun sp => E sp el)).sum := by
  induction sl with
  | nil => simp
  | cons x sl ih =>
    rw [List.map_cons, List.sum_cons,
      ih (fun y hy => hx y (List.mem_cons_of_mem x hy)),
      hs x (hx x (List.mem_cons_self x sl)), ← Finset.sum_add_distrib]
    refine Finset.sum_congr rfl (fun el _ => ?_)
    rw [List.map_cons, List.sum_cons]
    ring

/-- `fiberSum` of a vector that is an elementwise span, rewritten as a
span of elementwise fiber sums. -/
theorem fiberSum_span (m : StoichiometryManager) (j : ℕ) (Mw : Vec)
    (E : ℕ → ℕ → ℝ) (w : Vec) (nE ns : ℕ)
    (hs : ∀ sp < ns, Mw sp = ∑ el ∈ Finset.range nE, E sp el * w el)
    (hm : ∀ e ∈ m.reactions, ∀ x ∈ e.2, x < ns) :
    fiberSum m Mw j
      = ∑ el ∈ Finset.range nE, w el * fiberSum m (fun sp => E sp el) j := by
  unfold fiberSum
  have hmem : ∀ e ∈ m.reactions.filter (fun e => e.1 = j), ∀ x ∈ e.2, x < ns :=
    fun e he => hm e (List.mem_of_mem_filter he)
  have hcong : (m.reactions.filter (fun e => e.1 = j)).map
        (fun e => (e.2.map Mw).sum)
      = (m.reactions.filter (fun e => e.1 = j)).map
        (fun e => ∑ el ∈ Finset.range nE,
          w el * (e.2.map (fun sp => E sp el)).sum) := by
    apply List.map_congr_left
    intro e he
    exact map_sum_span e.2 Mw E w nE ns hs (hmem e he)
  rw [hcong, list_map_sum_swap]
  exact Finset.sum_congr rfl (fun el _ => map_sum_const_mul _ _ _)

/-! ### Branches of the temperature update -/

/-- Near branch of `updateT`: the cached state is returned untouched. -/
theorem Kinetics.updateT_of_near (k : Kinetics) (T : ℝ)
    (h : |T - k.m_T_last| < 1e-6) : k.updateT T = k := by
  unfold Kinetics.updateT
  rw [if_pos h]

/-- Far branch of `updateT`: caches recomputed, temperature stored. -/
theorem Kinetics.updateT_of_far (k : Kinetics) (T : ℝ)
    (h : 1e-6 ≤ |T - k.m_T_last|) :
    k.updateT T =
      { k with
        m_lnkf := k.m_rates.lnForwardRateCoefficients T k.m_lnkf
        m_lnkeq :=
          k.m_irr_prods.decrReactions (fun sp => k.m_thermo.gOverRT sp)
            (k.m_rev_prods.decrReactions (fun sp => k.m_thermo.gOverRT sp)
              (k.m_reactants.incrReactions (fun sp => k.m_thermo.gOverRT sp)
                (fun j => k.m_dnu j * Real.log (101325 / (RU * T)))))
        m_T_last := T } := by
  unfold Kinetics.updateT
  rw [if_neg (not_lt.mpr h)]

/-- `updateT` never touches `m_dnu`. -/
theorem Kinetics.updateT_dnu (k : Kinetics) (T : ℝ) :
    (k.updateT T).m_dnu = k.m_dnu := by
  unfold Kinetics.updateT
  split <;> rfl

/-! ### Concrete example mechanism used by the witnesses -/

/-- Two-species thermodynamic collaborator: species `A` (one atom of
the sole element, weight 1) and `A2` (two atoms, weight 2). -/
def thermoEx : Thermodynamics where
  nSpecies := 2
  speciesIndex := fun nm => if nm = "A" then 0 else if nm = "A2" then 1 else -1
  speciesName := fun sp => if sp = 0 then "A" else "A2"
  speciesMw := fun sp => if sp = 0 then 1 else 2
  nElements := 1
  elementName := fun _ => "A"
  elementMatrix := fun sp _ => if sp = 0 then 1 else if sp = 1 then 2 else 0
  gOverRT := fun _ => 0

/-- Reversible recombination `2A = A2` with a unit rate coefficient. -/
def rxnEx : Reaction where
  reactants := ["A", "A"]
  products := ["A2"]
  isReversible := true
  isThirdbody := false
  efficiencies := []
  lnRate := fun _ => 0
  formula := "2A = A2"

/-- Irreversible variant of `rxnEx`. -/
def rxnIrrEx : Reaction :=
  { rxnEx with isReversible := false, formula := "2A => A2" }

/-- Sealed single-reaction reversible example engine. -/
def kEx : Kinetics := Kinetics.seal thermoEx (-1) [rxnEx]

/-- Sealed single-reaction irreversible example engine. -/
def kIrrEx : Kinetics := Kinetics.seal thermoEx (-1) [rxnIrrEx]

/-- Example concentration vector: pure `A`. -/
def concEx : Vec := fun sp => if sp = 0 then 1 else 0

/-! ### C10: duplicate-pass index safety -/

/-- C10: provided the mechanism holds at least one reaction (and the
reaction count fits in a `size_t`), every index at which the
duplicate-detection pass of `closeReactions` reads the reaction list
lies in `[0, nReactions)`; the outer bound `nReactions - 1` is the
`size_t` value `dupOuterBound`. -/
theorem dupOuterBound_eq (n : ℕ) (h1 : 1 ≤ n) (h2 : n < 2 ^ 64) :
    dupOuterBound n = n - 1 := by
  unfold dupOuterBound
  have hrw : n + 2 ^ 64 - 1 = (n - 1) + 2 ^ 64 := by omega
  rw [hrw, Nat.add_mod_right]
  exact Nat.mod_eq_of_lt (by omega)

theorem dup_pass_indices_in_range (n : ℕ) (h1 : 1 ≤ n) (h2 : n < 2 ^ 64) :
    dupOuterBound n = n - 1 ∧ ∀ i ∈ dupAccessedIndices n, i < n := by
  have hb : dupOuterBound n = n - 1 := dupOuterBound_eq n h1 h2
  refine ⟨hb, fun i hi => ?_⟩
  unfold dupAccessedIndices at hi
  rw [List.mem_flatMap] at hi
  obtain ⟨a, ha, hmem⟩ := hi
  rw [List.mem_range, hb] at ha
  rcases List.mem_cons.mp hmem with h | h
  · omega
  · have := List.mem_range'_1.mp h
    omega

/-- Witness for C10 at the concrete reaction count 3. -/
theorem dup_pass_indices_in_range_witness :
    1 ≤ 3 ∧ 3 < 2 ^ 64
      ∧ (dupOuterBound 3 = 3 - 1 ∧ ∀ i ∈ dupAccessedIndices 3, i < 3) :=
  ⟨by norm_num, by norm_num,
    dup_pass_indices_in_range 3 (by norm_num) (by norm_num)⟩

/-! ### C4: temperature cache -/

/-- C4: after a first cache-updating call at `T1` (every rate-returning
method drives the cached state exclusively through `updateT`), a second
call at any `T2` with `|T2 - T1| < 1e-6` is a no-op on the whole cached
state (log forward rates, log equilibrium constants and `m_T_last`
included); and a call at a temperature at least `1e-6` away from
`m_T_last` recomputes both cached log vectors and stores the new
temperature. -/
theorem updateT_cache_contract (k : Kinetics) (T1 T2 : ℝ)
    (h1 : 1e-6 ≤ |T1 - k.m_T_last|) (h2 : |T2 - T1| < 1e-6) :
    (k.updateT T1).m_T_last = T1
      ∧ (k.updateT T1).updateT T2 = k.updateT T1
      ∧ (k.updateT T1).m_lnkf = k.m_rates.lnForwardRateCoefficients T1 k.m_lnkf
      ∧ (k.updateT T1).m_lnkeq =
          k.m_irr_prods.decrReactions (fun sp => k.m_thermo.gOverRT sp)
            (k.m_rev_prods.decrReactions (fun sp => k.m_thermo.gOverRT sp)
              (k.m_reactants.incrReactions (fun sp => k.m_thermo.gOverRT sp)
                (fun j => k.m_dnu j * Real.log (101325 / (RU * T1))))) := by
  have hfar := Kinetics.updateT_of_far k T1 h1
  have hlast : (k.updateT T1).m_T_last = T1 := by rw [hfar]
  refine ⟨hlast, ?_, by rw [hfar], by rw [hfar]⟩
  exact Kinetics.updateT_of_near (k.updateT T1) T2 (by rw [hlast]; exact h2)

/-- Witness for C4 on the sealed example engine, with `T1 = 300` and
`T2 = 300 + 1/2000000`. -/
theorem updateT_cache_contract_witness :
    1e-6 ≤ |300 - kEx.m_T_last|
      ∧ |(300 + 1/2000000 : ℝ) - 300| < 1e-6
      ∧ ((kEx.updateT 300).m_T_last = 300
        ∧ (kEx.updateT 300).updateT (300 + 1/2000000) = kEx.updateT 300
        ∧ (kEx.updateT 300).m_lnkf =
            kEx.m_rates.lnForwardRateCoefficients 300 kEx.m_lnkf
        ∧ (kEx.updateT 300).m_lnkeq =
            kEx.m_irr_prods.decrReactions (fun sp => kEx.m_thermo.gOverRT sp)
              (kEx.m_rev_prods.decrReactions
                (fun sp => kEx.m_thermo.gOverRT sp)
                (kEx.m_reactants.incrReactions
                  (fun sp => kEx.m_thermo.gOverRT sp)
                  (fun j => kEx.m_dnu j * Real.log (101325 / (RU * 300)))))) := by
  have hlast : kEx.m_T_last = -1 := rfl
  refine ⟨by rw [hlast]; norm_num, by rw [abs_lt]; constructor <;> norm_num, ?_⟩
  exact updateT_cache_contract kEx 300 (300 + 1/2000000)
    (by rw [hlast]; norm_num) (by rw [abs_lt]; constructor <;> norm_num)

/-! ### C2: backward coefficient is forward over equilibrium -/

/-- C2: for every reversible reaction (in fact for every reaction
slot), the backward rate coefficient equals the forward rate
coefficient divided by the equilibrium constant, and it is computed in
log space as the subtraction `lnkf - lnkeq` before exponentiation. -/
theorem backward_eq_forward_div_keq (k : Kinetics) (T : ℝ) (r : ℕ)
    (h : (k.rxnAt r).isReversible = true) :
    k.backwardRateCoefficients T r
        = k.forwardRateCoefficients T r / k.equilibriumConstants T r
      ∧ k.backwardRateCoefficients T r
        = Real.exp ((k.updateT T).m_lnkf r - (k.updateT T).m_lnkeq r) :=
  ⟨Real.exp_sub _ _, rfl⟩

/-- Witness for C2 on the sealed reversible example engine at
`T = 300`, reaction 0. -/
theorem backward_eq_forward_div_keq_witness :
    (kEx.rxnAt 0).isReversible = true
      ∧ (kEx.backwardRateCoefficients 300 0
          = kEx.forwardRateCoefficients 300 0 / kEx.equilibriumConstants 300 0
        ∧ kEx.backwardRateCoefficients 300 0
          = Real.exp ((kEx.updateT 300).m_lnkf 0 - (kEx.updateT 300).m_lnkeq 0)) :=
  ⟨rfl, backward_eq_forward_div_keq kEx 300 0 rfl⟩

/-! ### Projections of the sealed engine -/

theorem Kinetics.seal_thermo (th : Thermodynamics) (T0 : ℝ)
    (rxns : List Reaction) : (Kinetics.seal th T0 rxns).m_thermo = th := by
  show (Kinetics.buildFrom th T0 rxns).m_thermo = th
  unfold Kinetics.buildFrom
  rw [Kinetics.addReactionList_thermo]
  rfl

theorem Kinetics.seal_num (th : Thermodynamics) (T0 : ℝ)
    (rxns : List Reaction) :
    (Kinetics.seal th T0 rxns).m_num_rxns = rxns.length := by
  show (Kinetics.buildFrom th T0 rxns).m_num_rxns = rxns.length
  unfold Kinetics.buildFrom
  rw [Kinetics.addReactionList_num]
  simp [Kinetics.init]

theorem Kinetics.seal_rxns (th : Thermodynamics) (T0 : ℝ)
    (rxns : List Reaction) :
    (Kinetics.seal th T0 rxns).m_reactions = rxns := by
  show (Kinetics.buildFrom th T0 rxns).m_reactions = rxns
  unfold Kinetics.buildFrom
  rw [Kinetics.addReactionList_rxns]
  rfl

theorem Kinetics.seal_T_last (th : Thermodynamics) (T0 : ℝ)
    (rxns : List Reaction) :
    (Kinetics.seal th T0 rxns).m_T_last = T0 := by
  show (Kinetics.buildFrom th T0 rxns).m_T_last = T0
  unfold Kinetics.buildFrom
  exact ((Kinetics.addReactionList_caches _ _).2).1

/-! ### C9: dnu computed once at close time -/

/-- C9: at mechanism-close time `dnu[j]` is the all-ones species vector
passed through `getReactionDelta`, hence equals the sum of the
reaction's product stoichiometric coefficients minus the sum of its
reactant coefficients; and the only cache-mutating transition,
`updateT`, never modifies `dnu` afterwards. -/
theorem seal_dnu_spec (th : Thermodynamics) (T0 : ℝ) (rxns : List Reaction)
    (j : ℕ) (hj : j < rxns.length) :
    (Kinetics.seal th T0 rxns).m_dnu j
      = ((rxns.getD j default).products.length : ℝ)
        - ((rxns.getD j default).reactants.length : ℝ)
  ∧ (∀ T, ((Kinetics.seal th T0 rxns).updateT T).m_dnu
        = (Kinetics.seal th T0 rxns).m_dnu) := by
  constructor
  · show (Kinetics.buildFrom th T0 rxns).getReactionDelta (fun _ => 1) j = _
    rw [Kinetics.getReactionDelta_apply]
    simp only [fiberSum]
    rw [Kinetics.buildFrom_reactants_fiber th T0 rxns j hj,
      Kinetics.buildFrom_rev_prods_fiber th T0 rxns j hj,
      Kinetics.buildFrom_irr_prods_fiber th T0 rxns j hj]
    generalize rxns.getD j default = r
    cases hrev : r.isReversible
    · rw [if_neg (by simp [hrev]), if_neg (by simp [hrev])]
      simp [ones_sum, speciesIndicesT]
    · rw [if_pos (by simp [hrev]), if_pos (by simp [hrev])]
      simp [ones_sum, speciesIndicesT]
  · exact fun T => Kinetics.updateT_dnu _ T

/-- Witness for C9 on the sealed reversible example engine, reaction
0: `dnu = 1 - 2 = -1`. -/
theorem seal_dnu_spec_witness :
    (0 : ℕ) < [rxnEx].length
      ∧ ((Kinetics.seal thermoEx (-1) [rxnEx]).m_dnu 0
          = (([rxnEx].getD 0 default).products.length : ℝ)
            - (([rxnEx].getD 0 default).reactants.length : ℝ)
        ∧ ∀ T, (((Kinetics.seal thermoEx (-1) [rxnEx]).updateT T).m_dnu
            = (Kinetics.seal thermoEx (-1) [rxnEx]).m_dnu)) :=
  ⟨by norm_num, seal_dnu_spec thermoEx (-1) [rxnEx] 0 (by norm_num)⟩

/-! ### C8: log equilibrium constants -/

/-- C8: whenever the cache is recomputed at temperature `T`, the cached
log equilibrium constant of every reaction equals
`dnu * ln(101325 / (RU * T))` plus the Gibbs sum over its reactants
minus the Gibbs sum over its products, whether the reaction is
reversible or not (the reactant manager contributes positively, the
reversible- and irreversible-product managers negatively). -/
theorem seal_updateT_lnkeq (th : Thermodynamics) (T0 : ℝ)
    (rxns : List Reaction) (T : ℝ) (j : ℕ) (hj : j < rxns.length)
    (hT : 1e-6 ≤ |T - (Kinetics.seal th T0 rxns).m_T_last|) :
    ((Kinetics.seal th T0 rxns).updateT T).m_lnkeq j
      = (Kinetics.seal th T0 rxns).m_dnu j * Real.log (101325 / (RU * T))
        + ((speciesIndicesT th (rxns.getD j default).reactants).map
            th.gOverRT).sum
        - ((speciesIndicesT th (rxns.getD j default).products).map
            th.gOverRT).sum := by
  have hl : ((Kinetics.seal th T0 rxns).updateT T).m_lnkeq
      = (Kinetics.seal th T0 rxns).m_irr_prods.decrReactions
          (fun sp => (Kinetics.seal th T0 rxns).m_thermo.gOverRT sp)
          ((Kinetics.seal th T0 rxns).m_rev_prods.decrReactions
            (fun sp => (Kinetics.seal th T0 rxns).m_thermo.gOverRT sp)
            ((Kinetics.seal th T0 rxns).m_reactants.incrReactions
              (fun sp => (Kinetics.seal th T0 rxns).m_thermo.gOverRT sp)
              (fun i => (Kinetics.seal th T0 rxns).m_dnu i
                * Real.log (101325 / (RU * T))))) :=
    congrArg Kinetics.m_lnkeq (Kinetics.updateT_of_far _ T hT)
  rw [hl, Kinetics.seal_thermo, StoichiometryManager.decrReactions_apply,
    StoichiometryManager.decrReactions_apply,
    StoichiometryManager.incrReactions_apply]
  have hfr : fiberSum (Kinetics.seal th T0 rxns).m_reactants th.gOverRT j
      = ((speciesIndicesT th (rxns.getD j default).reactants).map
          th.gOverRT).sum := by
    show fiberSum (Kinetics.buildFrom th T0 rxns).m_reactants th.gOverRT j = _
    simp only [fiberSum]
    rw [Kinetics.buildFrom_reactants_fiber th T0 rxns j hj]
    simp
  have hpr : fiberSum (Kinetics.seal th T0 rxns).m_rev_prods th.gOverRT j
        + fiberSum (Kinetics.seal th T0 rxns).m_irr_prods th.gOverRT j
      = ((speciesIndicesT th (rxns.getD j default).products).map
          th.gOverRT).sum := by
    show fiberSum (Kinetics.buildFrom th T0 rxns).m_rev_prods th.gOverRT j
        + fiberSum (Kinetics.buildFrom th T0 rxns).m_irr_prods th.gOverRT j = _
    simp only [fiberSum]
    rw [Kinetics.buildFrom_rev_prods_fiber th T0 rxns j hj,
      Kinetics.buildFrom_irr_prods_fiber th T0 rxns j hj]
    generalize rxns.getD j default = r
    cases hrev : r.isReversible
    · rw [if_neg (by simp [hrev]), if_neg (by simp [hrev])]
      simp
    · rw [if_pos (by simp [hrev]), if_pos (by simp [hrev])]
      simp
  rw [hfr, ← hpr]
  ring

/-- Witness for C8 on the sealed reversible example engine at
`T = 300`, reaction 0. -/
theorem seal_updateT_lnkeq_witness :
    (0 : ℕ) < [rxnEx].length
      ∧ 1e-6 ≤ |300 - (Kinetics.seal thermoEx (-1) [rxnEx]).m_T_last|
      ∧ ((Kinetics.seal thermoEx (-1) [rxnEx]).updateT 300).m_lnkeq 0
        = (Kinetics.seal thermoEx (-1) [rxnEx]).m_dnu 0
            * Real.log (101325 / (RU * 300))
          + ((speciesIndicesT thermoEx ([rxnEx].getD 0 default).reactants).map
              thermoEx.gOverRT).sum
          - ((speciesIndicesT thermoEx ([rxnEx].getD 0 default).products).map
              thermoEx.gOverRT).sum := by
  have hT : (1e-6 : ℝ) ≤ |300 - (Kinetics.seal thermoEx (-1) [rxnEx]).m_T_last| := by
    rw [Kinetics.seal_T_last]
    norm_num
  exact ⟨by norm_num, hT,
    seal_updateT_lnkeq thermoEx (-1) [rxnEx] 300 0 (by norm_num) hT⟩

/-! ### C3: backward rate of progress of an irreversible reaction -/

/-- C3: a reaction not marked reversible has its products registered in
the irreversible-product manager, so `backwardRatesOfProgress` gives it
`exp(lnkf - lnkeq)` times only the third-body factor — no
product-concentration power product (`multReactions` runs on the
reversible-product manager, whose fiber at this reaction is empty) —
and `netRatesOfProgress` subtracts exactly this generally nonzero
backward term inside the third-body-scaled difference. -/
theorem irreversible_backward_rate (th : Thermodynamics) (T0 : ℝ)
    (rxns : List Reaction) (T : ℝ) (conc : Vec) (j : ℕ)
    (hj : j < rxns.length)
    (hirr : (rxns.getD j default).isReversible = false) :
    ((j, speciesIndicesT th (rxns.getD j default).products)
        ∈ (Kinetics.seal th T0 rxns).m_irr_prods.reactions)
  ∧ (Kinetics.seal th T0 rxns).backwardRatesOfProgress T conc j
      = Real.exp (((Kinetics.seal th T0 rxns).updateT T).m_lnkf j
          - ((Kinetics.seal th T0 rxns).updateT T).m_lnkeq j)
        * tbFiberProd (Kinetics.seal th T0 rxns).m_thirdbodies
            th.nSpecies conc j
  ∧ (Kinetics.seal th T0 rxns).netRatesOfProgress T conc j
      = ((Kinetics.seal th T0 rxns).m_reactants.multReactions conc
            ((Kinetics.seal th T0 rxns).forwardRateCoefficients T) j
          - Real.exp (((Kinetics.seal th T0 rxns).updateT T).m_lnkf j
              - ((Kinetics.seal th T0 rxns).updateT T).m_lnkeq j))
        * tbFiberProd (Kinetics.seal th T0 rxns).m_thirdbodies
            th.nSpecies conc j := by
  have hfiber : (Kinetics.seal th T0 rxns).m_irr_prods.reactions.filter
      (fun e => e.1 = j)
      = [(j, speciesIndicesT th ((rxns.getD j default).products))] := by
    show (Kinetics.buildFrom th T0 rxns).m_irr_prods.reactions.filter
      (fun e => e.1 = j) = _
    rw [Kinetics.buildFrom_irr_prods_fiber th T0 rxns j hj,
      if_neg (by rw [hirr]; simp)]
  have hrevfiber : (Kinetics.seal th T0 rxns).m_rev_prods.reactions.filter
      (fun e => e.1 = j) = [] := by
    show (Kinetics.buildFrom th T0 rxns).m_rev_prods.reactions.filter
      (fun e => e.1 = j) = _
    rw [Kinetics.buildFrom_rev_prods_fiber th T0 rxns j hj,
      if_neg (by rw [hirr]; simp)]
  have hrevprod : fiberProd (Kinetics.seal th T0 rxns).m_rev_prods conc j = 1 := by
    unfold fiberProd
    rw [hrevfiber]
    rfl
  refine ⟨?_, ?_, ?_⟩
  · exact List.mem_of_mem_filter
      (hfiber ▸ List.mem_singleton.mpr rfl)
  · show (Kinetics.seal th T0 rxns).m_thirdbodies.multiplyThirdbodies
        (Kinetics.seal th T0 rxns).m_thermo.nSpecies conc
        ((Kinetics.seal th T0 rxns).m_rev_prods.multReactions conc
          ((Kinetics.seal th T0 rxns).backwardRateCoefficients T)) j = _
    rw [ThirdbodyManager.multiplyThirdbodies_apply,
      StoichiometryManager.multReactions_apply, hrevprod,
      Kinetics.seal_thermo]
    show Real.exp _ * 1 * _ = _
    ring
  · show (Kinetics.seal th T0 rxns).m_thirdbodies.multiplyThirdbodies
        (Kinetics.seal th T0 rxns).m_thermo.nSpecies conc
        (fun i => (Kinetics.seal th T0 rxns).m_reactants.multReactions conc
            ((Kinetics.seal th T0 rxns).forwardRateCoefficients T) i
          - (Kinetics.seal th T0 rxns).m_rev_prods.multReactions conc
            ((Kinetics.seal th T0 rxns).backwardRateCoefficients T) i) j = _
    rw [ThirdbodyManager.multiplyThirdbodies_apply, Kinetics.seal_thermo]
    have hb : (Kinetics.seal th T0 rxns).m_rev_prods.multReactions conc
        ((Kinetics.seal th T0 rxns).backwardRateCoefficients T) j
        = Real.exp (((Kinetics.seal th T0 rxns).updateT T).m_lnkf j
            - ((Kinetics.seal th T0 rxns).updateT T).m_lnkeq j) := by
      rw [StoichiometryManager.multReactions_apply, hrevprod]
      show Real.exp _ * 1 = _
      ring
    rw [hb]

/-- Witness for C3 on the sealed irreversible example engine at
`T = 300`, reaction 0, concentration `concEx`. -/
theorem irreversible_backward_rate_witness :
    (0 : ℕ) < [rxnIrrEx].length
      ∧ ([rxnIrrEx].getD 0 default).isReversible = false
      ∧ (((0 : ℕ), speciesIndicesT thermoEx ([rxnIrrEx].getD 0 default).products)
            ∈ (Kinetics.seal thermoEx (-1) [rxnIrrEx]).m_irr_prods.reactions
        ∧ (Kinetics.seal thermoEx (-1) [rxnIrrEx]).backwardRatesOfProgress
              300 concEx 0
          = Real.exp (((Kinetics.seal thermoEx (-1) [rxnIrrEx]).updateT 300).m_lnkf 0
              - ((Kinetics.seal thermoEx (-1) [rxnIrrEx]).updateT 300).m_lnkeq 0)
            * tbFiberProd (Kinetics.seal thermoEx (-1) [rxnIrrEx]).m_thirdbodies
                thermoEx.nSpecies concEx 0
        ∧ (Kinetics.seal thermoEx (-1) [rxnIrrEx]).netRatesOfProgress 300 concEx 0
          = ((Kinetics.seal thermoEx (-1) [rxnIrrEx]).m_reactants.multReactions
                concEx
                ((Kinetics.seal thermoEx (-1) [rxnIrrEx]).forwardRateCoefficients
                  300) 0
              - Real.exp
                  (((Kinetics.seal thermoEx (-1) [rxnIrrEx]).updateT 300).m_lnkf 0
                    - ((Kinetics.seal thermoEx (-1) [rxnIrrEx]).updateT
                        300).m_lnkeq 0))
            * tbFiberProd (Kinetics.seal thermoEx (-1) [rxnIrrEx]).m_thirdbodies
                thermoEx.nSpecies concEx 0) :=
  ⟨by norm_num, rfl,
    irreversible_backward_rate thermoEx (-1) [rxnIrrEx] 300 concEx 0
      (by norm_num) rfl⟩

/-! ### C1: mass conservation of the production rates -/

/-- The three stoichiometry managers hold only registered reaction
indices and valid species indices (guaranteed for a mechanism whose
species-existence validation passed). -/
def Kinetics.stoichWellFormed (k : Kinetics) : Prop :=
  (∀ e ∈ k.m_reactants.reactions,
      e.1 < k.m_num_rxns ∧ ∀ x ∈ e.2, x < k.m_thermo.nSpecies)
  ∧ (∀ e ∈ k.m_rev_prods.reactions,
      e.1 < k.m_num_rxns ∧ ∀ x ∈ e.2, x < k.m_thermo.nSpecies)
  ∧ (∀ e ∈ k.m_irr_prods.reactions,
      e.1 < k.m_num_rxns ∧ ∀ x ∈ e.2, x < k.m_thermo.nSpecies)

/-- A weight-vector-contracted scatter sum turned into a per-entry
sum. -/
theorem weighted_scatter_sum (l : List (ℕ × List ℕ)) (rop Mw : Vec) (ns : ℕ)
    (hl : ∀ e ∈ l, ∀ x ∈ e.2, x < ns) :
    (∑ sp ∈ Finset.range ns,
        Mw sp * (l.map (fun e => (e.2.count sp : ℝ) * rop e.1)).sum)
      = (l.map (fun e => rop e.1 * (e.2.map Mw).sum)).sum := by
  induction l with
  | nil => simp
  | cons e l ih =>
    have hstep : ∀ sp ∈ Finset.range ns,
        Mw sp * (((e :: l).map (fun e2 => (e2.2.count sp : ℝ) * rop e2.1)).sum)
          = Mw sp * ((e.2.count sp : ℝ) * rop e.1)
            + Mw sp * ((l.map (fun e2 => (e2.2.count sp : ℝ) * rop e2.1)).sum) := by
      intro sp _
      rw [List.map_cons, List.sum_cons]
      ring
    rw [Finset.sum_congr rfl hstep, Finset.sum_add_distrib,
      ih (fun e2 he2 => hl e2 (List.mem_cons_of_mem e he2)),
      List.map_cons, List.sum_cons]
    have hhead : (∑ sp ∈ Finset.range ns,
          Mw sp * ((e.2.count sp : ℝ) * rop e.1))
        = rop e.1 * (e.2.map Mw).sum := by
      rw [← sum_count_mul e.2 Mw ns (hl e (List.mem_cons_self e l)),
        Finset.mul_sum]
      exact Finset.sum_congr rfl (fun sp _ => by ring)
    rw [hhead]

/-- A per-entry sum regrouped into a per-reaction sum. -/
theorem scatter_sum_fiberwise (l : List (ℕ × List ℕ)) (rop Mw : Vec) (n : ℕ)
    (hk : ∀ e ∈ l, e.1 < n) :
    (l.map (fun e => rop e.1 * (e.2.map Mw).sum)).sum
      = ∑ j ∈ Finset.range n,
          rop j * ((l.filter (fun e => e.1 = j)).map
            (fun e => (e.2.map Mw).sum)).sum := by
  rw [list_sum_fiberwise l (fun e => e.1)
    (fun e => rop e.1 * (e.2.map Mw).sum) n hk]
  exact Finset.sum_congr rfl (fun j _ =>
    map_sum_fiber_factor _ j rop _
      (fun e he => by simpa using (List.mem_filter.mp he).2))

/-- C1 (amended): for a closed mechanism — the stoichiometry managers
well-formed, the molecular weights an elementwise span of the element
matrix, and every element-conservation residual of the validation pass
zero — the species sum of the (already mass-basis) public
`netProductionRates` vector is zero at every evaluated state. -/
theorem netProductionRates_mass_conservation (k : Kinetics) (w : Vec)
    (hwf : k.stoichWellFormed)
    (hspan : ∀ sp < k.m_thermo.nSpecies,
      k.m_thermo.speciesMw sp
        = ∑ el ∈ Finset.range k.m_thermo.nElements,
            k.m_thermo.elementMatrix sp el * w el)
    (hcons : ∀ el < k.m_thermo.nElements, ∀ j < k.m_num_rxns,
      k.getReactionDelta (fun sp => k.m_thermo.elementMatrix sp el) j = 0)
    (T : ℝ) (conc : Vec) :
    (∑ sp ∈ Finset.range k.m_thermo.nSpecies,
      k.netProductionRates T conc sp) = 0 := by
  obtain ⟨hwfA, hwfB, hwfC⟩ := hwf
  have hdeltaMw : ∀ j < k.m_num_rxns,
      k.getReactionDelta (fun sp => k.m_thermo.speciesMw sp) j = 0 := by
    intro j hj
    rw [Kinetics.getReactionDelta_apply,
      fiberSum_span _ j _ k.m_thermo.elementMatrix w k.m_thermo.nElements
        k.m_thermo.nSpecies hspan (fun e he => (hwfB e he).2),
      fiberSum_span _ j _ k.m_thermo.elementMatrix w k.m_thermo.nElements
        k.m_thermo.nSpecies hspan (fun e he => (hwfC e he).2),
      fiberSum_span _ j _ k.m_thermo.elementMatrix w k.m_thermo.nElements
        k.m_thermo.nSpecies hspan (fun e he => (hwfA e he).2),
      ← Finset.sum_add_distrib, ← Finset.sum_sub_distrib]
    refine Finset.sum_eq_zero (fun el hel => ?_)
    have h0 := hcons el (Finset.mem_range.mp hel) j hj
    rw [Kinetics.getReactionDelta_apply] at h0
    have : fiberSum k.m_rev_prods (fun sp => k.m_thermo.elementMatrix sp el) j
          + fiberSum k.m_irr_prods (fun sp => k.m_thermo.elementMatrix sp el) j
          - fiberSum k.m_reactants (fun sp => k.m_thermo.elementMatrix sp el) j
        = 0 := h0
    linear_combination (w el) * this
  have hval : ∀ sp, k.netProductionRates T conc sp
      = k.m_thermo.speciesMw sp
        * (0
          - ((k.m_reactants.reactions.map
              (fun e => (e.2.count sp : ℝ)
                * k.netRatesOfProgress T conc e.1)).sum)
          + ((k.m_rev_prods.reactions.map
              (fun e => (e.2.count sp : ℝ)
                * k.netRatesOfProgress T conc e.1)).sum)
          + ((k.m_irr_prods.reactions.map
              (fun e => (e.2.count sp : ℝ)
                * k.netRatesOfProgress T conc e.1)).sum)) := by
    intro sp
    show (k.m_irr_prods.incrSpecies (k.netRatesOfProgress T conc)
        (k.m_rev_prods.incrSpecies (k.netRatesOfProgress T conc)
          (k.m_reactants.decrSpecies (k.netRatesOfProgress T conc)
            (fun _ => 0)))) sp * k.m_thermo.speciesMw sp = _
    rw [StoichiometryManager.incrSpecies_apply,
      StoichiometryManager.incrSpecies_apply,
      StoichiometryManager.decrSpecies_apply]
    ring
  rw [Finset.sum_congr rfl (fun sp _ => hval sp)]
  have hsplit : ∀ sp ∈ Finset.range k.m_thermo.nSpecies,
      k.m_thermo.speciesMw sp
        * (0
          - ((k.m_reactants.reactions.map
              (fun e => (e.2.count sp : ℝ)
                * k.netRatesOfProgress T conc e.1)).sum)
          + ((k.m_rev_prods.reactions.map
              (fun e => (e.2.count sp : ℝ)
                * k.netRatesOfProgress T conc e.1)).sum)
          + ((k.m_irr_prods.reactions.map
              (fun e => (e.2.count sp : ℝ)
                * k.netRatesOfProgress T conc e.1)).sum))
      = (k.m_thermo.speciesMw sp
            * ((k.m_rev_prods.reactions.map
              (fun e => (e.2.count sp : ℝ)
                * k.netRatesOfProgress T conc e.1)).sum)
          + k.m_thermo.speciesMw sp
            * ((k.m_irr_prods.reactions.map
              (fun e => (e.2.count sp : ℝ)
                * k.netRatesOfProgress T conc e.1)).sum))
        - k.m_thermo.speciesMw sp
            * ((k.m_reactants.reactions.map
              (fun e => (e.2.count sp : ℝ)
                * k.netRatesOfProgress T conc e.1)).sum) := by
    intro sp _
    ring
  rw [Finset.sum_congr rfl hsplit, Finset.sum_sub_distrib,
    Finset.sum_add_distrib,
    weighted_scatter_sum _ _ _ _ (fun e he => (hwfA e he).2),
    weighted_scatter_sum _ _ _ _ (fun e he => (hwfB e he).2),
    weighted_scatter_sum _ _ _ _ (fun e he => (hwfC e he).2),
    scatter_sum_fiberwise _ _ _ k.m_num_rxns (fun e he => (hwfA e he).1),
    scatter_sum_fiberwise _ _ _ k.m_num_rxns (fun e he => (hwfB e he).1),
    scatter_sum_fiberwise _ _ _ k.m_num_rxns (fun e he => (hwfC e he).1),
    ← Finset.sum_add_distrib, ← Finset.sum_sub_distrib]
  refine Finset.sum_eq_zero (fun j hj => ?_)
  have h0 := hdeltaMw j (Finset.mem_range.mp hj)
  rw [Kinetics.getReactionDelta_apply] at h0
  have hexp : fiberSum k.m_rev_prods (fun sp => k.m_thermo.speciesMw sp) j
        + fiberSum k.m_irr_prods (fun sp => k.m_thermo.speciesMw sp) j
        - fiberSum k.m_reactants (fun sp => k.m_thermo.speciesMw sp) j
      = 0 := h0
  unfold fiberSum at hexp
  linear_combination (k.netRatesOfProgress T conc j) * hexp

/-! ### Concrete evaluation of the example engine -/

theorem kEx_reactants_list : kEx.m_reactants.reactions = [(0, [0, 0])] := rfl

theorem kEx_rev_list : kEx.m_rev_prods.reactions = [(0, [1])] := rfl

theorem kEx_irr_list : kEx.m_irr_prods.reactions = [] := rfl

theorem kEx_tb_list : kEx.m_thirdbodies.reactions = [] := rfl

theorem kEx_rates_list : kEx.m_rates.rates = [(0, fun _ => (0 : ℝ))] := rfl

theorem kEx_T_last : kEx.m_T_last = -1 := rfl

theorem kEx_thermo : kEx.m_thermo = thermoEx := rfl

/-- Net rate of progress of the example reaction at `T = 300` on pure
`A`: the unit forward coefficient times `conc(A)^2 = 1`, minus a
backward part annihilated by `conc(A2) = 0`. -/
theorem kEx_rop0 : kEx.netRatesOfProgress 300 concEx 0 = 1 := by
  have hT : (1e-6 : ℝ) ≤ |300 - kEx.m_T_last| := by
    rw [kEx_T_last]
    norm_num
  show kEx.m_thirdbodies.multiplyThirdbodies kEx.m_thermo.nSpecies concEx
      (fun j => kEx.m_reactants.multReactions concEx
          (kEx.forwardRateCoefficients 300) j
        - kEx.m_rev_prods.multReactions concEx
          (kEx.backwardRateCoefficients 300) j) 0 = 1
  rw [ThirdbodyManager.multiplyThirdbodies_apply]
  have htb : tbFiberProd kEx.m_thirdbodies kEx.m_thermo.nSpecies concEx 0 = 1 := by
    unfold tbFiberProd
    rw [kEx_tb_list]
    rfl
  rw [htb, mul_one]
  show kEx.m_reactants.multReactions concEx (kEx.forwardRateCoefficients 300) 0
      - kEx.m_rev_prods.multReactions concEx
        (kEx.backwardRateCoefficients 300) 0 = 1
  rw [StoichiometryManager.multReactions_apply,
    StoichiometryManager.multReactions_apply]
  have hfpA : fiberProd kEx.m_reactants concEx 0 = 1 := by
    unfold fiberProd
    rw [kEx_reactants_list]
    simp [concEx]
  have hfpB : fiberProd kEx.m_rev_prods concEx 0 = 0 := by
    unfold fiberProd
    rw [kEx_rev_list]
    simp [concEx]
  rw [hfpA, hfpB, mul_one, mul_zero, sub_zero]
  show Real.exp ((kEx.updateT 300).m_lnkf 0) = 1
  have hml : (kEx.updateT 300).m_lnkf
      = kEx.m_rates.lnForwardRateCoefficients 300 kEx.m_lnkf :=
    congrArg Kinetics.m_lnkf (Kinetics.updateT_of_far kEx 300 hT)
  rw [hml, RateManager.lnForwardRateCoefficients_apply_single kEx.m_rates 300
    kEx.m_lnkf 0 (fun _ => (0 : ℝ)) (by rw [kEx_rates_list]; rfl)]
  exact Real.exp_zero

/-- Mass-basis production rates of the example engine: `A` is consumed
at mole rate 2 (weight 1), `A2` produced at mole rate 1 (weight 2). -/
theorem kEx_netProd : kEx.netProductionRates 300 concEx 0 = -2
    ∧ kEx.netProductionRates 300 concEx 1 = 2 := by
  constructor
  · show (kEx.m_irr_prods.incrSpecies (kEx.netRatesOfProgress 300 concEx)
        (kEx.m_rev_prods.incrSpecies (kEx.netRatesOfProgress 300 concEx)
          (kEx.m_reactants.decrSpecies (kEx.netRatesOfProgress 300 concEx)
            (fun _ => 0)))) 0 * kEx.m_thermo.speciesMw 0 = -2
    rw [StoichiometryManager.incrSpecies_apply,
      StoichiometryManager.incrSpecies_apply,
      StoichiometryManager.decrSpecies_apply, kEx_irr_list, kEx_rev_list,
      kEx_reactants_list, kEx_thermo]
    simp [kEx_rop0, thermoEx]
  · show (kEx.m_irr_prods.incrSpecies (kEx.netRatesOfProgress 300 concEx)
        (kEx.m_rev_prods.incrSpecies (kEx.netRatesOfProgress 300 concEx)
          (kEx.m_reactants.decrSpecies (kEx.netRatesOfProgress 300 concEx)
            (fun _ => 0)))) 1 * kEx.m_thermo.speciesMw 1 = 2
    rw [StoichiometryManager.incrSpecies_apply,
      StoichiometryManager.incrSpecies_apply,
      StoichiometryManager.decrSpecies_apply, kEx_irr_list, kEx_rev_list,
      kEx_reactants_list, kEx_thermo]
    simp [kEx_rop0, thermoEx]

/-- The example engine is well-formed. -/
theorem kEx_wf : kEx.stoichWellFormed := by
  unfold Kinetics.stoichWellFormed
  refine ⟨?_, ?_, ?_⟩
  · intro e he
    rw [kEx_reactants_list, List.mem_singleton] at he
    subst he
    refine ⟨by decide, ?_⟩
    intro x hx
    rcases List.mem_cons.mp hx with h | h
    · subst h
      decide
    · rcases List.mem_singleton.mp h with rfl
      decide
  · intro e he
    rw [kEx_rev_list, List.mem_singleton] at he
    subst he
    refine ⟨by decide, ?_⟩
    intro x hx
    rcases List.mem_singleton.mp hx with rfl
    decide
  · intro e he
    rw [kEx_irr_list] at he
    exact absurd he (List.not_mem_nil e)

/-- The example molecular weights lie in the span of the element
matrix with unit atomic weight. -/
theorem kEx_span : ∀ sp < kEx.m_thermo.nSpecies,
    kEx.m_thermo.speciesMw sp
      = ∑ el ∈ Finset.range kEx.m_thermo.nElements,
          kEx.m_thermo.elementMatrix sp el * (fun _ => (1 : ℝ)) el := by
  intro sp hsp
  rw [kEx_thermo] at hsp ⊢
  have h2 : sp < 2 := hsp
  interval_cases sp <;> norm_num [thermoEx, Finset.sum_range_one]

/-- The example mechanism conserves its sole element. -/
theorem kEx_cons : ∀ el < kEx.m_thermo.nElements, ∀ j < kEx.m_num_rxns,
    kEx.getReactionDelta (fun sp => kEx.m_thermo.elementMatrix sp el) j = 0 := by
  intro el hel j hj
  have hel1 : el < 1 := hel
  have hj1 : j < 1 := hj
  have hel0 : el = 0 := by omega
  have hj0 : j = 0 := by omega
  subst hel0
  subst hj0
  rw [Kinetics.getReactionDelta_apply]
  unfold fiberSum
  rw [kEx_rev_list, kEx_irr_list, kEx_reactants_list, kEx_thermo]
  norm_num [thermoEx]

/-- C1 counterexample: on a closed (well-formed, element-conserving,
weight-consistent) two-species mechanism `2A = A2`, the sum demanded by
the claim — public `netProductionRates` (already mass basis) weighted
once more by the molecular weights — is 2, not 0: the claim as stated
is false. -/
theorem netProductionRates_weighted_counterexample :
    ¬ (∀ (k : Kinetics) (w : Vec),
        k.stoichWellFormed →
        (∀ sp < k.m_thermo.nSpecies,
          k.m_thermo.speciesMw sp
            = ∑ el ∈ Finset.range k.m_thermo.nElements,
                k.m_thermo.elementMatrix sp el * w el) →
        (∀ el < k.m_thermo.nElements, ∀ j < k.m_num_rxns,
          k.getReactionDelta (fun sp => k.m_thermo.elementMatrix sp el) j
            = 0) →
        ∀ (T : ℝ) (conc : Vec),
          (∑ sp ∈ Finset.range k.m_thermo.nSpecies,
            k.netProductionRates T conc sp * k.m_thermo.speciesMw sp) = 0) := by
  intro hclaim
  have h := hclaim kEx (fun _ => 1) kEx_wf kEx_span kEx_cons 300 concEx
  have h2 : (∑ sp ∈ Finset.range 2,
      kEx.netProductionRates 300 concEx sp * kEx.m_thermo.speciesMw sp) = 0 := h
  rw [Finset.sum_range_succ, Finset.sum_range_succ, Finset.sum_range_zero,
    kEx_netProd.1, kEx_netProd.2, kEx_thermo] at h2
  norm_num [thermoEx] at h2

/-- Witness for the amended C1 on the sealed example engine at
`T = 300`, pure-`A` concentrations. -/
theorem netProductionRates_mass_conservation_witness :
    kEx.stoichWellFormed
  ∧ (∀ sp < kEx.m_thermo.nSpecies,
      kEx.m_thermo.speciesMw sp
        = ∑ el ∈ Finset.range kEx.m_thermo.nElements,
            kEx.m_thermo.elementMatrix sp el * (fun _ => (1 : ℝ)) el)
  ∧ (∀ el < kEx.m_thermo.nElements, ∀ j < kEx.m_num_rxns,
      kEx.getReactionDelta (fun sp => kEx.m_thermo.elementMatrix sp el) j = 0)
  ∧ (∑ sp ∈ Finset.range kEx.m_thermo.nSpecies,
      kEx.netProductionRates 300 concEx sp) = 0 :=
  ⟨kEx_wf, kEx_span, kEx_cons,
    netProductionRates_mass_conservation kEx (fun _ => 1) kEx_wf kEx_span
      kEx_cons 300 concEx⟩

/-! ### Membership in the validation report -/

theorem Kinetics.buildFrom_thermo (th : Thermodynamics) (T0 : ℝ)
    (rxns : List Reaction) :
    (Kinetics.buildFrom th T0 rxns).m_thermo = th := by
  unfold Kinetics.buildFrom
  rw [Kinetics.addReactionList_thermo]
  rfl

theorem Kinetics.buildFrom_num (th : Thermodynamics) (T0 : ℝ)
    (rxns : List Reaction) :
    (Kinetics.buildFrom th T0 rxns).m_num_rxns = rxns.length := by
  unfold Kinetics.buildFrom
  rw [Kinetics.addReactionList_num]
  simp [Kinetics.init]

theorem Kinetics.buildFrom_rxns (th : Thermodynamics) (T0 : ℝ)
    (rxns : List Reaction) :
    (Kinetics.buildFrom th T0 rxns).m_reactions = rxns := by
  unfold Kinetics.buildFrom
  rw [Kinetics.addReactionList_rxns]
  rfl

/-- The duplicate-detection double loop visits every pair `i < j` of
valid reaction indices. -/
theorem dupVisitedPairs_mem (n i j : ℕ) (hn : n < 2 ^ 64) (hij : i < j)
    (hjn : j < n) :
    (i, j) ∈ dupVisitedPairs n := by
  unfold dupVisitedPairs
  rw [List.mem_flatMap]
  refine ⟨i, ?_, ?_⟩
  · rw [List.mem_range, dupOuterBound_eq n (by omega) hn]
    omega
  · rw [List.mem_map]
    refine ⟨j, ?_, rfl⟩
    rw [List.mem_range'_1]
    omega

/-- Every pair of reactions with exactly equal normalized
net-stoichiometry vectors is reported by the duplicate check. -/
theorem mem_dupDiags_of (k : Kinetics) (i j : ℕ) (hn : k.m_num_rxns < 2 ^ 64)
    (hij : i < j) (hjn : j < k.m_num_rxns)
    (heq : vecEq k.m_thermo.nSpecies (k.normStoich i) (k.normStoich j)) :
    Diagnostic.duplicate i j ∈ k.dupDiags := by
  unfold Kinetics.dupDiags
  rw [List.mem_filterMap]
  exact ⟨(i, j), dupVisitedPairs_mem _ i j hn hij hjn, by rw [if_pos heq]⟩

/-- Every missing reactant or product species is reported by the
species-existence check. -/
theorem mem_speciesDiags_of (k : Kinetics) (i : ℕ) (hi : i < k.m_num_rxns)
    (nm : String)
    (hmem : nm ∈ (k.rxnAt i).reactants ∨ nm ∈ (k.rxnAt i).products)
    (hbad : k.m_thermo.speciesIndex nm < 0) :
    Diagnostic.missingSpecies i nm ∈ k.speciesDiags := by
  unfold Kinetics.speciesDiags
  rw [List.mem_flatMap]
  refine ⟨i, List.mem_range.mpr hi, ?_⟩
  rcases hmem with h | h
  · apply List.mem_append_left
    apply List.mem_append_left
    rw [List.mem_map]
    exact ⟨nm, List.mem_filter.mpr ⟨h, by simpa using hbad⟩, rfl⟩
  · apply List.mem_append_left
    apply List.mem_append_right
    rw [List.mem_map]
    exact ⟨nm, List.mem_filter.mpr ⟨h, by simpa using hbad⟩, rfl⟩

/-- Every missing third-body species is reported by the
species-existence check. -/
theorem mem_thirdbodyDiags_of (k : Kinetics) (i : ℕ) (hi : i < k.m_num_rxns)
    (htb : (k.rxnAt i).isThirdbody = true) (p : String × ℝ)
    (hmem : p ∈ (k.rxnAt i).efficiencies)
    (hbad : k.m_thermo.speciesIndex p.1 < 0) :
    Diagnostic.missingThirdbody i p.1 ∈ k.speciesDiags := by
  unfold Kinetics.speciesDiags
  rw [List.mem_flatMap]
  refine ⟨i, List.mem_range.mpr hi, ?_⟩
  apply List.mem_append_right
  rw [if_pos htb, List.mem_map]
  exact ⟨p, List.mem_filter.mpr ⟨hmem, by simpa using hbad⟩, rfl⟩

/-- Every nonzero element-conservation residual is reported by the
conservation check. -/
theorem mem_consDiags_of (k : Kinetics) (el j : ℕ)
    (hel : el < k.m_thermo.nElements) (hj : j < k.m_num_rxns)
    (hnz : k.getReactionDelta (fun sp => k.m_thermo.elementMatrix sp el) j
      ≠ 0) :
    Diagnostic.nonConservation el j ∈ k.consDiags := by
  unfold Kinetics.consDiags
  rw [List.mem_flatMap]
  refine ⟨el, List.mem_range.mpr hel, ?_⟩
  rw [List.mem_filterMap]
  exact ⟨j, List.mem_range.mpr hj, by rw [if_pos hnz]⟩

/-- Any diagnostic of any of the three checks appears in the combined
validation report. -/
theorem mem_validationDiags (k : Kinetics) (d : Diagnostic) :
    (d ∈ k.speciesDiags ∨ d ∈ k.dupDiags ∨ d ∈ k.consDiags) →
    d ∈ k.validationDiags := by
  intro h
  unfold Kinetics.validationDiags
  rcases h with h | h | h
  · exact List.mem_append_left _ (List.mem_append_left _ h)
  · exact List.mem_append_left _ (List.mem_append_right _ h)
  · exact List.mem_append_right _ h

/-! ### C7: validation runs to completion -/

/-- C7: validation never stops early: every missing reactant, product
or third-body species of every reaction, every duplicate pair, and
every nonzero conservation residual of every (element, reaction) pair
is present in the diagnostic list returned by `closeReactions`, and the
load-abort decision is taken only on the full list (it fails exactly
when that complete list is nonempty). -/
theorem validation_runs_to_completion (k : Kinetics)
    (hn : k.m_num_rxns < 2 ^ 64) :
    (∀ i < k.m_num_rxns, ∀ nm,
      (nm ∈ (k.rxnAt i).reactants ∨ nm ∈ (k.rxnAt i).products) →
      k.m_thermo.speciesIndex nm < 0 →
      Diagnostic.missingSpecies i nm ∈ (k.closeReactions true).1)
  ∧ (∀ i < k.m_num_rxns, (k.rxnAt i).isThirdbody = true →
      ∀ p ∈ (k.rxnAt i).efficiencies, k.m_thermo.speciesIndex p.1 < 0 →
      Diagnostic.missingThirdbody i p.1 ∈ (k.closeReactions true).1)
  ∧ (∀ i j, i < j → j < k.m_num_rxns →
      vecEq k.m_thermo.nSpecies (k.normStoich i) (k.normStoich j) →
      Diagnostic.duplicate i j ∈ (k.closeReactions true).1)
  ∧ (∀ el < k.m_thermo.nElements, ∀ j < k.m_num_rxns,
      k.getReactionDelta (fun sp => k.m_thermo.elementMatrix sp el) j ≠ 0 →
      Diagnostic.nonConservation el j ∈ (k.closeReactions true).1)
  ∧ (k.loadFails ↔ (k.closeReactions true).1 ≠ []) := by
  refine ⟨?_, ?_, ?_, ?_, Iff.rfl⟩
  · intro i hi nm hmem hbad
    exact mem_validationDiags k _ (Or.inl (mem_speciesDiags_of k i hi nm hmem hbad))
  · intro i hi htb p hp hbad
    exact mem_validationDiags k _ (Or.inl (mem_thirdbodyDiags_of k i hi htb p hp hbad))
  · intro i j hij hjn heq
    exact mem_validationDiags k _ (Or.inr (Or.inl (mem_dupDiags_of k i j hn hij hjn heq)))
  · intro el hel j hj hnz
    exact mem_validationDiags k _ (Or.inr (Or.inr (mem_consDiags_of k el j hel hj hnz)))

/-- Witness for C7 on the built example engine. -/
theorem validation_runs_to_completion_witness :
    (Kinetics.buildFrom thermoEx (-1) [rxnEx]).m_num_rxns < 2 ^ 64
  ∧ ((Kinetics.buildFrom thermoEx (-1) [rxnEx]).loadFails
      ↔ ((Kinetics.buildFrom thermoEx (-1) [rxnEx]).closeReactions true).1 ≠ []) := by
  have hn : (Kinetics.buildFrom thermoEx (-1) [rxnEx]).m_num_rxns < 2 ^ 64 := by
    rw [Kinetics.buildFrom_num]
    norm_num
  exact ⟨hn, (validation_runs_to_completion _ hn).2.2.2.2⟩

/-! ### C6: duplicate reactions abort the load -/

/-- C6: two reactions `i < j` whose normalized net-stoichiometry
vectors are exactly equal are reported as a duplicate diagnostic
carrying both reaction indices, and the mechanism load fails. -/
theorem duplicate_reactions_reported (th : Thermodynamics) (T0 : ℝ)
    (rxns : List Reaction) (i j : ℕ) (hn : rxns.length < 2 ^ 64)
    (hij : i < j) (hjn : j < rxns.length)
    (heq : vecEq th.nSpecies ((Kinetics.buildFrom th T0 rxns).normStoich i)
      ((Kinetics.buildFrom th T0 rxns).normStoich j)) :
    Diagnostic.duplicate i j
        ∈ ((Kinetics.buildFrom th T0 rxns).closeReactions true).1
  ∧ (Kinetics.buildFrom th T0 rxns).loadFails := by
  have hmem : Diagnostic.duplicate i j
      ∈ (Kinetics.buildFrom th T0 rxns).dupDiags := by
    apply mem_dupDiags_of
    · rw [Kinetics.buildFrom_num]
      exact hn
    · exact hij
    · rw [Kinetics.buildFrom_num]
      exact hjn
    · rw [Kinetics.buildFrom_thermo]
      exact heq
  have hval : Diagnostic.duplicate i j
      ∈ (Kinetics.buildFrom th T0 rxns).validationDiags :=
    mem_validationDiags _ _ (Or.inr (Or.inl hmem))
  exact ⟨hval, List.ne_nil_of_mem hval⟩

/-- Witness for C6: loading the mechanism `[2A = A2, 2A = A2]` reports
the pair (0, 1) and fails. -/
theorem duplicate_reactions_reported_witness :
    [rxnEx, rxnEx].length < 2 ^ 64
  ∧ (Diagnostic.duplicate 0 1
      ∈ ((Kinetics.buildFrom thermoEx (-1) [rxnEx, rxnEx]).closeReactions
          true).1
    ∧ (Kinetics.buildFrom thermoEx (-1) [rxnEx, rxnEx]).loadFails) :=
  ⟨by norm_num,
    duplicate_reactions_reported thermoEx (-1) [rxnEx, rxnEx] 0 1
      (by norm_num) (by norm_num) (by norm_num) (fun _ _ => rfl)⟩

/-! ### C5: exact failure condition of the validation pass -/

/-- Per-(reaction, element) conservation residual exactly as the spec
phrases it: the net stoichiometric vector (product minus reactant
coefficient per species) dotted with the element's per-species atom
counts. -/
def Kinetics.elementResidual (k : Kinetics) (j el : ℕ) : ℝ :=
  ∑ sp ∈ Finset.range k.m_thermo.nSpecies,
    (((k.rxnAt j).productCoeff (k.m_thermo.speciesName sp) : ℝ)
      - ((k.rxnAt j).reactantCoeff (k.m_thermo.speciesName sp) : ℝ))
    * k.m_thermo.elementMatrix sp el

/-- Under a consistent species resolver, the index-level element sum
over an occurrence list of names equals the name-count-weighted sum
over the species range. -/
theorem name_sum_eq_count_sum (th : Thermodynamics) (names : List String)
    (el : ℕ) (hns : th.nSpecies < 2 ^ 64)
    (hidx : ∀ nm ∈ names, 0 ≤ th.speciesIndex nm
      ∧ th.speciesIndex nm < (th.nSpecies : Int)
      ∧ th.speciesName (th.speciesIndex nm).toNat = nm)
    (hinj : ∀ sp1 < th.nSpecies, ∀ sp2 < th.nSpecies,
      th.speciesName sp1 = th.speciesName sp2 → sp1 = sp2) :
    ((speciesIndicesT th names).map (fun sp => th.elementMatrix sp el)).sum
      = ∑ sp ∈ Finset.range th.nSpecies,
          (names.count (th.speciesName sp) : ℝ) * th.elementMatrix sp el := by
  induction names with
  | nil => simp [speciesIndicesT]
  | cons nm names ih =>
    obtain ⟨h0, hlt, hname⟩ := hidx nm (List.mem_cons_self nm names)
    have hidxnat : sizeTOfInt (th.speciesIndex nm)
        = (th.speciesIndex nm).toNat := by
      unfold sizeTOfInt
      have hm : (th.speciesIndex nm).emod (2 ^ 64) = th.speciesIndex nm := by
        show th.speciesIndex nm % (2 : Int) ^ 64 = _
        have hb : th.speciesIndex nm < (2 : Int) ^ 64 := by
          have hcast : ((th.nSpecies : Int)) ≤ (2 : Int) ^ 64 := by
            exact_mod_cast Nat.le_of_lt hns
          omega
        rw [Int.emod_eq_of_lt h0 hb]
      rw [hm]
    have htn : (th.speciesIndex nm).toNat < th.nSpecies := by omega
    rw [show speciesIndicesT th (nm :: names)
        = sizeTOfInt (th.speciesIndex nm) :: speciesIndicesT th names
      from rfl]
    rw [List.map_cons, List.sum_cons,
      ih (fun x hx => hidx x (List.mem_cons_of_mem nm hx)), hidxnat]
    have hsplit : ∀ sp ∈ Finset.range th.nSpecies,
        ((nm :: names).count (th.speciesName sp) : ℝ)
            * th.elementMatrix sp el
          = (names.count (th.speciesName sp) : ℝ) * th.elementMatrix sp el
            + (if th.speciesName sp = nm then th.elementMatrix sp el
              else 0) := by
      intro sp _
      rw [List.count_cons]
      by_cases h : th.speciesName sp = nm
      · rw [if_pos (by simpa using h.symm), if_pos h]
        push_cast
        ring
      · rw [if_neg (by simpa using fun hh => h hh.symm), if_neg h]
        push_cast
        ring
    rw [Finset.sum_congr rfl hsplit, Finset.sum_add_distrib]
    have hbmem : (th.speciesIndex nm).toNat ∈ Finset.range th.nSpecies :=
      Finset.mem_range.mpr htn
    have hzero : ∀ c ∈ Finset.range th.nSpecies,
        c ≠ (th.speciesIndex nm).toNat →
        (if th.speciesName c = nm then th.elementMatrix c el else 0) = 0 := by
      intro c hc hcne
      rw [if_neg]
      intro hceq
      exact hcne (hinj c (Finset.mem_range.mp hc)
        ((th.speciesIndex nm).toNat) htn (by rw [hceq, hname]))
    rw [Finset.sum_eq_single_of_mem _ hbmem hzero, if_pos hname]
    ring

/-- On a built mechanism with a consistent species resolver, the
manager-level conservation residual computed through
`getReactionDelta` equals the name-level dot product of the spec. -/
theorem buildFrom_delta_eq_residual (th : Thermodynamics) (T0 : ℝ)
    (rxns : List Reaction) (j el : ℕ) (hj : j < rxns.length)
    (hns : th.nSpecies < 2 ^ 64)
    (hidx : ∀ nm, (nm ∈ (rxns.getD j default).reactants
        ∨ nm ∈ (rxns.getD j default).products) →
      0 ≤ th.speciesIndex nm ∧ th.speciesIndex nm < (th.nSpecies : Int)
      ∧ th.speciesName (th.speciesIndex nm).toNat = nm)
    (hinj : ∀ sp1 < th.nSpecies, ∀ sp2 < th.nSpecies,
      th.speciesName sp1 = th.speciesName sp2 → sp1 = sp2) :
    (Kinetics.buildFrom th T0 rxns).getReactionDelta
        (fun sp => th.elementMatrix sp el) j
      = (Kinetics.buildFrom th T0 rxns).elementResidual j el := by
  have hres : (Kinetics.buildFrom th T0 rxns).elementResidual j el
      = ∑ sp ∈ Finset.range th.nSpecies,
          ((((rxns.getD j default).products.count (th.speciesName sp) : ℝ))
            - (((rxns.getD j default).reactants.count (th.speciesName sp) : ℝ)))
          * th.elementMatrix sp el := by
    unfold Kinetics.elementResidual Kinetics.rxnAt
    unfold Reaction.productCoeff Reaction.reactantCoeff
    rw [Kinetics.buildFrom_thermo, Kinetics.buildFrom_rxns]
  rw [hres, Kinetics.getReactionDelta_apply]
  simp only [fiberSum]
  rw [Kinetics.buildFrom_reactants_fiber th T0 rxns j hj,
    Kinetics.buildFrom_rev_prods_fiber th T0 rxns j hj,
    Kinetics.buildFrom_irr_prods_fiber th T0 rxns j hj]
  have hprod : ((speciesIndicesT th (rxns.getD j default).products).map
        (fun sp => th.elementMatrix sp el)).sum
      = ∑ sp ∈ Finset.range th.nSpecies,
          ((rxns.getD j default).products.count (th.speciesName sp) : ℝ)
            * th.elementMatrix sp el :=
    name_sum_eq_count_sum th _ el hns
      (fun nm hnm => hidx nm (Or.inr hnm)) hinj
  have hreac : ((speciesIndicesT th (rxns.getD j default).reactants).map
        (fun sp => th.elementMatrix sp el)).sum
      = ∑ sp ∈ Finset.range th.nSpecies,
          ((rxns.getD j default).reactants.count (th.speciesName sp) : ℝ)
            * th.elementMatrix sp el :=
    name_sum_eq_count_sum th _ el hns
      (fun nm hnm => hidx nm (Or.inl hnm)) hinj
  have hrhs : (∑ sp ∈ Finset.range th.nSpecies,
        ((((rxns.getD j default).products.count (th.speciesName sp) : ℝ))
          - (((rxns.getD j default).reactants.count (th.speciesName sp) : ℝ)))
        * th.elementMatrix sp el)
      = (∑ sp ∈ Finset.range th.nSpecies,
          ((rxns.getD j default).products.count (th.speciesName sp) : ℝ)
            * th.elementMatrix sp el)
        - ∑ sp ∈ Finset.range th.nSpecies,
            ((rxns.getD j default).reactants.count (th.speciesName sp) : ℝ)
              * th.elementMatrix sp el := by
    rw [← Finset.sum_sub_distrib]
    exact Finset.sum_congr rfl (fun sp _ => by ring)
  rw [hrhs, ← hprod, ← hreac]
  generalize rxns.getD j default = r
  cases hrev : r.isReversible
  · rw [if_neg (by simp), if_neg (by simp)]
    simp
  · rw [if_pos rfl, if_pos rfl]
    simp

/-- The conservation check emits a diagnostic exactly when some
(element, reaction) residual is nonzero. -/
theorem consDiags_ne_nil_iff (k : Kinetics) :
    k.consDiags ≠ [] ↔ ∃ el < k.m_thermo.nElements, ∃ j < k.m_num_rxns,
      k.getReactionDelta (fun sp => k.m_thermo.elementMatrix sp el) j ≠ 0 := by
  unfold Kinetics.consDiags
  rw [Ne, List.flatMap_eq_nil_iff]
  constructor
  · intro h
    push_neg at h
    obtain ⟨el, hel, hne⟩ := h
    rw [List.mem_range] at hel
    refine ⟨el, hel, ?_⟩
    rw [Ne, List.filterMap_eq_nil_iff] at hne
    push_neg at hne
    obtain ⟨j, hj, hsome⟩ := hne
    rw [List.mem_range] at hj
    refine ⟨j, hj, ?_⟩
    by_contra h0
    rw [if_neg (not_not_intro h0)] at hsome
    exact hsome rfl
  · rintro ⟨el, hel, j, hj, hnz⟩ h
    have h1 := h el (List.mem_range.mpr hel)
    rw [List.filterMap_eq_nil_iff] at h1
    have h2 := h1 j (List.mem_range.mpr hj)
    rw [if_pos hnz] at h2
    exact Option.some_ne_none _ h2

/-- C5: with validation requested, the mechanism load fails if and only
if some (element, reaction) pair has a nonzero — compared exactly —
conservation residual (the name-level net-stoichiometry vector dotted
with the element's atom counts), or the species-existence check or the
duplicate check failed. -/
theorem closeReactions_failure_iff (th : Thermodynamics) (T0 : ℝ)
    (rxns : List Reaction) (hns : th.nSpecies < 2 ^ 64)
    (hidx : ∀ j < rxns.length, ∀ nm,
      (nm ∈ (rxns.getD j default).reactants
        ∨ nm ∈ (rxns.getD j default).products) →
      0 ≤ th.speciesIndex nm ∧ th.speciesIndex nm < (th.nSpecies : Int)
      ∧ th.speciesName (th.speciesIndex nm).toNat = nm)
    (hinj : ∀ sp1 < th.nSpecies, ∀ sp2 < th.nSpecies,
      th.speciesName sp1 = th.speciesName sp2 → sp1 = sp2) :
    (Kinetics.buildFrom th T0 rxns).loadFails ↔
      ((∃ el < th.nElements, ∃ j < rxns.length,
          (Kinetics.buildFrom th T0 rxns).elementResidual j el ≠ 0)
        ∨ (Kinetics.buildFrom th T0 rxns).speciesDiags ≠ []
        ∨ (Kinetics.buildFrom th T0 rxns).dupDiags ≠ []) := by
  have hsplit : (Kinetics.buildFrom th T0 rxns).loadFails ↔
      ((Kinetics.buildFrom th T0 rxns).speciesDiags ≠ []
        ∨ (Kinetics.buildFrom th T0 rxns).dupDiags ≠ []
        ∨ (Kinetics.buildFrom th T0 rxns).consDiags ≠ []) := by
    unfold Kinetics.loadFails Kinetics.validationDiags
    rw [Ne, List.append_eq_nil, List.append_eq_nil, not_and_or, not_and_or]
    exact or_assoc
  have hcons : (Kinetics.buildFrom th T0 rxns).consDiags ≠ [] ↔
      (∃ el < th.nElements, ∃ j < rxns.length,
        (Kinetics.buildFrom th T0 rxns).elementResidual j el ≠ 0) := by
    rw [consDiags_ne_nil_iff, Kinetics.buildFrom_thermo,
      Kinetics.buildFrom_num]
    refine exists_congr (fun el => and_congr_right (fun _ =>
      exists_congr (fun j => and_congr_right (fun hj => ?_))))
    rw [buildFrom_delta_eq_residual th T0 rxns j el hj hns
      (fun nm hnm => hidx j hj nm hnm) hinj]
  rw [hsplit, hcons]
  constructor
  · rintro (h | h | h)
    · exact Or.inr (Or.inl h)
    · exact Or.inr (Or.inr h)
    · exact Or.inl h
  · rintro (h | h | h)
    · exact Or.inr (Or.inr h)
    · exact Or.inl h
    · exact Or.inr (Or.inl h)

set_option maxRecDepth 8192 in
/-- Witness for C5 on the example mechanism, whose resolver is
consistent. -/
theorem closeReactions_failure_iff_witness :
    thermoEx.nSpecies < 2 ^ 64
  ∧ ((Kinetics.buildFrom thermoEx (-1) [rxnEx]).loadFails ↔
      ((∃ el < thermoEx.nElements, ∃ j < [rxnEx].length,
          (Kinetics.buildFrom thermoEx (-1) [rxnEx]).elementResidual j el ≠ 0)
        ∨ (Kinetics.buildFrom thermoEx (-1) [rxnEx]).speciesDiags ≠ []
        ∨ (Kinetics.buildFrom thermoEx (-1) [rxnEx]).dupDiags ≠ [])) := by
  have hidx : ∀ j < [rxnEx].length, ∀ nm,
      (nm ∈ ([rxnEx].getD j default).reactants
        ∨ nm ∈ ([rxnEx].getD j default).products) →
      0 ≤ thermoEx.speciesIndex nm
      ∧ thermoEx.speciesIndex nm < (thermoEx.nSpecies : Int)
      ∧ thermoEx.speciesName (thermoEx.speciesIndex nm).toNat = nm := by
    intro j hj nm hmem
    have hj0 : j = 0 := by
      simp only [List.length_singleton] at hj
      omega
    subst hj0
    rcases hmem with h | h
    · rcases List.mem_cons.mp h with rfl | h2
      · exact ⟨by decide, by decide, by decide⟩
      · rcases List.mem_singleton.mp h2 with rfl
        exact ⟨by decide, by decide, by decide⟩
    · rcases List.mem_singleton.mp h with rfl
      exact ⟨by decide, by decide, by decide⟩
  exact ⟨by norm_num [thermoEx], closeReactions_failure_iff thermoEx (-1)
    [rxnEx] (by norm_num [thermoEx]) hidx (by decide)⟩

end

end Mpp
